import Mathlib

/-!
SharedPtr: a reference-counted shared-ownership pointer

Shallow embedding of `SharedPtr.hpp`.  The C++ heap is made explicit:

* `State.objects` are the `T` objects created by `new T{v}`; a raw `T*` is
  `none` (nullptr) or `some a`, the position of the object;
* `State.blocks` are the `ControlBlock`s created by `new ControlBlock{ptr}`;
  a `ControlBlock*` is `none` or `some b`;
* `State.handles` are the `SharedPtr` objects; `none` marks a handle whose
  destructor has run.

`delete` is recorded rather than enforced: each object and each block counts
how many times `delete` was applied to it, so a second `delete` is observable.
`std::atomic_long` is a 64-bit two's-complement integer (`wrapLong`).
-/

namespace SharedPtrModel

/-- Largest value of `long`. -/
def LONG_MAX : Int := 9223372036854775807

/-- Two's-complement reduction of an integer to the range of `long`, the
arithmetic of `std::atomic_long`. -/
def wrapLong (x : Int) : Int :=
  (x + 9223372036854775808) % 18446744073709551616 - 9223372036854775808

/-- A heap object of type `T` (`int` in the tests) with the number of times
`delete` has been applied to it. -/
structure Obj where
  value : Int
  deleted : Nat
deriving DecidableEq, Repr

/-- The class `SharedPtr::ControlBlock` with the number of times
`delete m_control_block` has been applied to it. -/
structure ControlBlock where
  m_ptr : Option Nat
  m_counter : Int
  freed : Nat
deriving DecidableEq, Repr

/-- The class `SharedPtr`: its only member is `m_control_block`. -/
structure SharedPtr where
  m_control_block : Option Nat
deriving DecidableEq, Repr

/-- The heap and the handles of a running program. -/
structure State where
  objects : List Obj
  blocks : List ControlBlock
  handles : List (Option SharedPtr)
deriving DecidableEq, Repr

/-- The state of a program that has not run yet. -/
def State.empty : State := ⟨[], [], []⟩

/-- Ways an operation can fail to complete. -/
inductive Fault where
  | assertion
  | bad_alloc
  | null_deref
  | invalid
deriving DecidableEq, Repr

/-- Result of an operation: completion with the new state, or a failure
together with the state at the point of failure. -/
inductive Outcome where
  | ok (s : State)
  | fail (f : Fault) (s : State)
deriving DecidableEq, Repr

/-- The expression `new T{v}`: a new object, whose address is returned. -/
def new_obj (s : State) (v : Int) : State :=
  { s with objects := s.objects ++ [⟨v, 0⟩] }

/-- The statement `delete m_ptr` (`delete nullptr` does nothing). -/
def delete_obj (s : State) (p : Option Nat) : Option State :=
  match p with
  | none => some s
  | some a =>
    match s.objects[a]? with
    | none => none
    | some o => some { s with objects := s.objects.set a { o with deleted := o.deleted + 1 } }

/-- The statement `delete m_control_block`. -/
def delete_block (s : State) (b : Nat) : Option State :=
  match s.blocks[b]? with
  | none => none
  | some cb => some { s with blocks := s.blocks.set b { cb with freed := cb.freed + 1 } }

/-- Member function `ControlBlock::dec`: `if (0 == --m_counter) { delete m_ptr; return true; } return false;` -/
def ControlBlock.dec (s : State) (b : Nat) : Option (Bool × State) :=
  match s.blocks[b]? with
  | none => none
  | some cb =>
    let c := wrapLong (cb.m_counter - 1)
    let s1 := { s with blocks := s.blocks.set b { cb with m_counter := c } }
    if c = 0 then
      match delete_obj s1 cb.m_ptr with
      | none => none
      | some s2 => some (true, s2)
    else some (false, s1)

/-- Member function `ControlBlock::inc`: `++m_counter;` -/
def ControlBlock.inc (s : State) (b : Nat) : Option State :=
  match s.blocks[b]? with
  | none => none
  | some cb =>
    some { s with blocks := s.blocks.set b { cb with m_counter := wrapLong (cb.m_counter + 1) } }

/-- Member function `ControlBlock::operator*`: `return *m_ptr;` as the address of the object. -/
def ControlBlock.deref (s : State) (b : Nat) : Option Nat :=
  match s.blocks[b]? with
  | none => none
  | some cb => cb.m_ptr

/-- The member `m_control_block` of the live handle `h`. -/
def block_ref (s : State) (h : Nat) : Option (Option Nat) :=
  match s.handles[h]? with
  | some (some sp) => some sp.m_control_block
  | _ => none

/-- Assignment to the member `m_control_block` of the live handle `h`. -/
def set_block_ref (s : State) (h : Nat) (r : Option Nat) : Outcome :=
  match block_ref s h with
  | none => .fail .invalid s
  | some _ => .ok { s with handles := s.handles.set h (some ⟨r⟩) }

/-- Member function `SharedPtr::release`:
`if (m_control_block != nullptr && m_control_block->dec()) delete m_control_block;` -/
def release (s : State) (h : Nat) : Outcome :=
  match block_ref s h with
  | none => .fail .invalid s
  | some none => .ok s
  | some (some b) =>
    match ControlBlock.dec s b with
    | none => .fail .invalid s
    | some (false, s1) => .ok s1
    | some (true, s1) =>
      match delete_block s1 b with
      | none => .fail .invalid s1
      | some s2 => .ok s2

/-- Member function `SharedPtr::acquire`:
`assert(ptr != nullptr); m_control_block = new ControlBlock{ptr};`
where `mem` tells whether `new` finds memory. -/
def acquire (s : State) (h : Nat) (ptr : Option Nat) (mem : Bool) : Outcome :=
  match ptr with
  | none => .fail .assertion s
  | some a =>
    if mem then
      set_block_ref { s with blocks := s.blocks ++ [⟨some a, 1, 0⟩] } h (some s.blocks.length)
    else .fail .bad_alloc s

/-- Member function `SharedPtr::copy_from`:
`m_control_block = another.m_control_block; m_control_block->inc();` -/
def copy_from (s : State) (h another : Nat) : Outcome :=
  match block_ref s another with
  | none => .fail .invalid s
  | some r =>
    match set_block_ref s h r with
    | .fail f s1 => .fail f s1
    | .ok s1 =>
      match r with
      | none => .fail .null_deref s1
      | some b =>
        match ControlBlock.inc s1 b with
        | none => .fail .invalid s1
        | some s2 => .ok s2

/-- Storage for a new handle, with the default member initialiser
`m_control_block = nullptr`. -/
def new_handle (s : State) : State :=
  { s with handles := s.handles ++ [some ⟨none⟩] }

/-- Default constructor `SharedPtr()`. -/
def default_ctor (s : State) : Outcome :=
  .ok (new_handle s)

/-- Copy constructor:
`if (another.m_control_block != nullptr) { copy_from(another); }` -/
def copy_ctor (s : State) (another : Nat) : Outcome :=
  match block_ref s another with
  | none => .fail .invalid s
  | some none => .ok (new_handle s)
  | some (some _) => copy_from (new_handle s) s.handles.length another

/-- Initializing constructor `SharedPtr(T* ptr)`: `acquire(ptr);`.  When it
does not complete no handle has been constructed. -/
def ptr_ctor (s : State) (ptr : Option Nat) (mem : Bool) : Outcome :=
  match acquire (new_handle s) s.handles.length ptr mem with
  | .ok s1 => .ok s1
  | .fail f _ => .fail f s

/-- Assignment operator:
`if (this != &another) { release(); copy_from(another); } return *this;` -/
def assign (s : State) (h another : Nat) : Outcome :=
  match block_ref s h, block_ref s another with
  | some _, some _ =>
    if h ≠ another then
      match release s h with
      | .fail f s1 => .fail f s1
      | .ok s1 => copy_from s1 h another
    else .ok s
  | _, _ => .fail .invalid s

/-- Destructor: `release();`, after which the handle is gone. -/
def dtor (s : State) (h : Nat) : Outcome :=
  match release s h with
  | .fail f s1 => .fail f s1
  | .ok s1 => .ok { s1 with handles := s1.handles.set h none }

/-- Member function `SharedPtr::reset`: `release(); acquire(ptr);` -/
def reset (s : State) (h : Nat) (ptr : Option Nat) (mem : Bool) : Outcome :=
  match release s h with
  | .fail f s1 => .fail f s1
  | .ok s1 => acquire s1 h ptr mem

/-- Member function `SharedPtr::operator*`: `return **m_control_block;` as the address of the
managed object. -/
def deref (s : State) (h : Nat) : Option Nat :=
  match block_ref s h with
  | some (some b) => ControlBlock.deref s b
  | _ => none

/-- Reading `*h`. -/
def load (s : State) (h : Nat) : Option Int :=
  match deref s h with
  | none => none
  | some a => (s.objects[a]?).map Obj.value

/-- The statement `*h = w`. -/
def store (s : State) (h : Nat) (w : Int) : Outcome :=
  match block_ref s h with
  | none => .fail .invalid s
  | some none => .fail .null_deref s
  | some (some _) =>
    match deref s h with
    | none => .fail .invalid s
    | some a =>
      match s.objects[a]? with
      | none => .fail .invalid s
      | some o => .ok { s with objects := s.objects.set a { o with value := w } }

/-- The statements of a client program.  A constructor creates the handle
numbered `handles.length`; `alloc v` is `new T{v}` and yields the address
`objects.length`. -/
inductive Op where
  | default_ctor
  | copy_ctor (another : Nat)
  | ptr_ctor (ptr : Option Nat) (mem : Bool)
  | assign (h another : Nat)
  | dtor (h : Nat)
  | reset (h : Nat) (ptr : Option Nat) (mem : Bool)
  | alloc (v : Int)
  | store (h : Nat) (w : Int)
deriving DecidableEq, Repr

/-- Execution of one statement. -/
def exec (s : State) : Op → Outcome
  | .default_ctor => default_ctor s
  | .copy_ctor another => copy_ctor s another
  | .ptr_ctor ptr mem => ptr_ctor s ptr mem
  | .assign h another => assign s h another
  | .dtor h => dtor s h
  | .reset h ptr mem => reset s h ptr mem
  | .alloc v => .ok (new_obj s v)
  | .store h w => store s h w

/-- Execution of a sequence of statements, stopping at the first failure. -/
def run (s : State) : List Op → Outcome
  | [] => .ok s
  | op :: rest =>
    match exec s op with
    | .ok s1 => run s1 rest
    | .fail f s1 => .fail f s1

/-- A raw pointer is fresh when it is the address of an object that has not
been deleted and that no control block manages. -/
def fresh (s : State) (ptr : Option Nat) : Bool :=
  match ptr with
  | none => false
  | some a =>
    match s.objects[a]? with
    | none => false
    | some o => o.deleted == 0 && !(s.blocks.map ControlBlock.m_ptr).contains (some a)

/-- The raw pointer a statement hands over, if any, is fresh. -/
def Op.fresh (s : State) : Op → Bool
  | .ptr_ctor ptr _ => SharedPtrModel.fresh s ptr
  | .reset _ ptr _ => SharedPtrModel.fresh s ptr
  | _ => true

/-- Every raw pointer handed over during the run is fresh at that moment. -/
def fresh_run (s : State) : List Op → Bool
  | [] => true
  | op :: rest =>
    op.fresh s && (match exec s op with
      | .ok s1 => fresh_run s1 rest
      | .fail _ _ => true)

/-- Number of live handles whose `m_control_block` is block `b`. -/
def refs (s : State) (b : Nat) : Nat :=
  s.handles.count (some ⟨some b⟩)

/-- The count invariant relative to a number of owners `g b` for each block:
the counter is the number of owners, a block is freed exactly when it has no
owner left, it manages an object that is deleted exactly when the block is
freed, no two blocks manage the same object, objects outside every block are
not deleted, and a block with an owner exists. -/
structure BlocksOk (s : State) (g : Nat → Nat) : Prop where
  counter : ∀ (b : Nat) (cb : ControlBlock), s.blocks[b]? = some cb → cb.m_counter = (g b : Int)
  freed : ∀ (b : Nat) (cb : ControlBlock), s.blocks[b]? = some cb → cb.freed = if g b = 0 then 1 else 0
  managed : ∀ (b : Nat) (cb : ControlBlock), s.blocks[b]? = some cb →
    ∃ a o, cb.m_ptr = some a ∧ s.objects[a]? = some o ∧ o.deleted = cb.freed
  inj : (s.blocks.map ControlBlock.m_ptr).Nodup
  unmanaged : ∀ (a : Nat) (o : Obj), s.objects[a]? = some o →
    some a ∉ s.blocks.map ControlBlock.m_ptr → o.deleted = 0
  valid : ∀ b, 0 < g b → b < s.blocks.length

/-- The count invariant: `BlocksOk` for the number of live handles that
reference each block. -/
def Inv (s : State) : Prop := BlocksOk s (refs s)

/-- Two states have the same handles, the same managed pointers and the same
object values. -/
structure SameShape (s s1 : State) : Prop where
  handles : s1.handles = s.handles
  ptrs : s1.blocks.map ControlBlock.m_ptr = s.blocks.map ControlBlock.m_ptr
  values : s1.objects.map Obj.value = s.objects.map Obj.value

/-- Postcondition of an operation: the count invariant, and the handles, the
managed pointers and the object values of the new state. -/
structure Post (s1 : State) (hs : List (Option SharedPtr)) (ps : List (Option Nat))
    (vs : List Int) : Prop where
  inv : Inv s1
  handles : s1.handles = hs
  ptrs : s1.blocks.map ControlBlock.m_ptr = ps
  values : s1.objects.map Obj.value = vs

/-- The handles after a statement that completes. -/
def handles_after (s : State) : Op → List (Option SharedPtr)
  | .default_ctor => s.handles ++ [some ⟨none⟩]
  | .copy_ctor another => s.handles ++ [some ⟨(block_ref s another).getD none⟩]
  | .ptr_ctor _ _ => s.handles ++ [some ⟨some s.blocks.length⟩]
  | .assign h another =>
    if h = another then s.handles
    else s.handles.set h (some ⟨(block_ref s another).getD none⟩)
  | .dtor h => s.handles.set h none
  | .reset h _ _ => s.handles.set h (some ⟨some s.blocks.length⟩)
  | .alloc _ => s.handles
  | .store _ _ => s.handles

/-- The value `*h` computed from the handles, the managed pointers and the
object values. -/
def load_of (hs : List (Option SharedPtr)) (ps : List (Option Nat)) (vs : List Int)
    (h : Nat) : Option Int :=
  match hs[h]? with
  | some (some ⟨some b⟩) =>
    match ps[b]? with
    | some (some a) => vs[a]?
    | _ => none
  | _ => none

/-- The statement copies from, assigns to, resets or destroys handle `h`. -/
def Op.touches (h : Nat) : Op → Bool
  | .copy_ctor another => another == h
  | .assign x another => x == h || another == h
  | .dtor x => x == h
  | .reset x _ _ => x == h
  | _ => false

/-- A way for a handle to give up its block: its destructor runs, or
`h.reset(new T{w})`. -/
inductive Removal where
  | destroy (h : Nat)
  | reset_away (h : Nat) (w : Int)
deriving DecidableEq, Repr

/-- The handle a removal acts on. -/
def Removal.handle : Removal → Nat
  | .destroy h => h
  | .reset_away h _ => h

/-- The statements of a removal. -/
def Removal.ops (s : State) : Removal → List Op
  | .destroy h => [.dtor h]
  | .reset_away h w => [.alloc w, .reset h (some s.objects.length) true]

/-- Execution of a sequence of removals. -/
def remove_all (s : State) : List Removal → Outcome
  | [] => .ok s
  | r :: rest =>
    match run s (r.ops s) with
    | .ok s1 => remove_all s1 rest
    | .fail f s1 => .fail f s1

/-- The handles numbered `base` to `base + N` are a family sharing block `B`,
which manages object `a`: exactly those of them not in `done` reference `B`. -/
structure Family (base N B a : Nat) (done : List Nat) (t : State) : Prop where
  inv : Inv t
  len : t.handles.length = base + N + 1
  ptr : (t.blocks.map ControlBlock.m_ptr)[B]? = some (some a)
  members : ∀ h : Nat, block_ref t h = some (some B) ↔ (base ≤ h ∧ h ≤ base + N ∧ h ∉ done)

/-- Two handles share a block that manages the object holding 12345, and a
second object holding 67890 is not managed yet (the state of
`testSharedPtrReset` before the call of `reset`). -/
def demo_shared : State :=
  ⟨[⟨12345, 0⟩, ⟨67890, 0⟩], [⟨some 0, 2, 0⟩], [some ⟨some 0⟩, some ⟨some 0⟩]⟩

/-- One handle owns an object and a second handle is absent. -/
def demo_absent : State :=
  ⟨[⟨1, 0⟩], [⟨some 0, 1, 0⟩], [some ⟨some 0⟩, some ⟨none⟩]⟩

/-- One object holding 12345 has been allocated and no handle exists (the
state of `testSharedPtrDereference` before the construction). -/
def demo_object : State := ⟨[⟨12345, 0⟩], [], []⟩

/-- The state an operation ends in, completed or not. -/
def Outcome.state : Outcome → State
  | .ok s => s
  | .fail _ s => s

/-- The body of the assignment operator without the identity check:
`release(); copy_from(another);`. -/
def assign_unguarded (s : State) (h another : Nat) : Outcome :=
  match release s h with
  | .fail f s1 => .fail f s1
  | .ok s1 => copy_from s1 h another

/-- One handle is the sole owner of an object holding 1. -/
def demo_sole : State := ⟨[⟨1, 0⟩], [⟨some 0, 1, 0⟩], [some ⟨some 0⟩]⟩

/-- The statements that `n` times copy-construct a handle from `H` and destroy
the copy, where `len` handles exist before the first copy. -/
def round_trips (len H : Nat) : Nat → List Op
  | 0 => []
  | n + 1 => .copy_ctor H :: .dtor len :: round_trips (len + 1) H n

/-- No control block manages the null pointer. -/
def NoNull (s : State) : Prop := ∀ cb ∈ s.blocks, cb.m_ptr ≠ none

/-- Execution of a sequence of statements by a client that catches
`std::bad_alloc` and goes on with the state the failed statement left; any
other failure ends the program. -/
def run_catch (s : State) : List Op → Outcome
  | [] => .ok s
  | op :: rest =>
    match exec s op with
    | .ok s1 => run_catch s1 rest
    | .fail .bad_alloc s1 => run_catch s1 rest
    | .fail f s1 => .fail f s1

/-- Every raw pointer handed over during such a run is fresh at that moment. -/
def fresh_run_catch (s : State) : List Op → Bool
  | [] => true
  | op :: rest =>
    op.fresh s && (match exec s op with
      | .ok s1 => fresh_run_catch s1 rest
      | .fail .bad_alloc s1 => fresh_run_catch s1 rest
      | .fail _ _ => true)

end SharedPtrModel

namespace SharedPtrModel

theorem wrapLong_id (x : Int) (h1 : -9223372036854775808 ≤ x) (h2 : x ≤ LONG_MAX) :
    wrapLong x = x := by
  unfold wrapLong
  unfold LONG_MAX at h2
  omega

theorem map_set_same {α β : Type} (f : α → β) (l : List α) (i : Nat) (x y : α)
    (hx : l[i]? = some x) (hf : f y = f x) : (l.set i y).map f = l.map f := by
  apply List.ext_getElem?
  intro j
  simp only [List.getElem?_map, List.getElem?_set]
  by_cases hij : i = j
  · subst hij
    have hlt : i < l.length := by
      rcases List.getElem?_eq_some.1 hx with ⟨h, _⟩
      exact h
    simp [hlt, hx, hf]
  · simp [hij]

theorem release_absent (s : State) (h : Nat) (hr : block_ref s h = some none) :
    release s h = .ok s := by
  simp [release, hr]

theorem release_shared (s : State) (h b : Nat) (cb : ControlBlock)
    (hr : block_ref s h = some (some b)) (hb : s.blocks[b]? = some cb)
    (hc : wrapLong (cb.m_counter - 1) ≠ 0) :
    release s h = .ok { s with
      blocks := s.blocks.set b { cb with m_counter := wrapLong (cb.m_counter - 1) } } := by
  simp [release, hr, ControlBlock.dec, hb, hc]

theorem release_last (s : State) (h b a : Nat) (cb : ControlBlock) (o : Obj)
    (hr : block_ref s h = some (some b)) (hb : s.blocks[b]? = some cb)
    (hc : wrapLong (cb.m_counter - 1) = 0) (hp : cb.m_ptr = some a)
    (ho : s.objects[a]? = some o) :
    release s h = .ok
      { objects := s.objects.set a { o with deleted := o.deleted + 1 },
        blocks := s.blocks.set b { cb with m_counter := 0, freed := cb.freed + 1 },
        handles := s.handles } := by
  have hlt : b < s.blocks.length := by
    rcases List.getElem?_eq_some.1 hb with ⟨h, _⟩
    exact h
  simp [release, hr, ControlBlock.dec, hb, hc, hp, delete_obj, ho, delete_block, hlt]

theorem lookup_lt {α : Type} (l : List α) (i : Nat) (x : α) (h : l[i]? = some x) :
    i < l.length := by
  rcases List.getElem?_eq_some.1 h with ⟨h, _⟩
  exact h

theorem lookup_of_lt {α : Type} (l : List α) (i : Nat) (h : i < l.length) :
    ∃ x, l[i]? = some x :=
  ⟨l[i], List.getElem?_eq_getElem h⟩

theorem ptr_mem (s : State) (b : Nat) (cb : ControlBlock) (hcb : s.blocks[b]? = some cb) :
    cb.m_ptr ∈ s.blocks.map ControlBlock.m_ptr :=
  List.mem_map.2 ⟨cb, List.getElem?_mem hcb, rfl⟩

theorem ptr_inj (s : State) (hn : (s.blocks.map ControlBlock.m_ptr).Nodup) (b1 b2 : Nat)
    (cb1 cb2 : ControlBlock) (h1 : s.blocks[b1]? = some cb1) (h2 : s.blocks[b2]? = some cb2)
    (he : cb1.m_ptr = cb2.m_ptr) : b1 = b2 := by
  apply List.getElem?_inj (by simpa using lookup_lt _ _ _ h1) hn
  simp [List.getElem?_map, h1, h2, he]

theorem blocksOk_handles (s : State) (hs : List (Option SharedPtr)) (g : Nat → Nat) :
    BlocksOk { s with handles := hs } g ↔ BlocksOk s g :=
  ⟨fun h => ⟨h.counter, h.freed, h.managed, h.inj, h.unmanaged, h.valid⟩,
   fun h => ⟨h.counter, h.freed, h.managed, h.inj, h.unmanaged, h.valid⟩⟩

theorem release_spec (s : State) (g : Nat → Nat) (h b : Nat) (hI : BlocksOk s g)
    (hr : block_ref s h = some (some b)) (hpos : 0 < g b) (hle : (g b : Int) ≤ LONG_MAX) :
    ∃ s1, release s h = .ok s1 ∧ SameShape s s1 ∧
      BlocksOk s1 (Function.update g b (g b - 1)) := by
  have hlt := hI.valid b hpos
  obtain ⟨cb, hcb⟩ := lookup_of_lt s.blocks b hlt
  have hcnt := hI.counter b cb hcb
  have hw : wrapLong (cb.m_counter - 1) = (g b : Int) - 1 := by
    rw [hcnt]
    apply wrapLong_id <;> (unfold LONG_MAX at *; omega)
  obtain ⟨a, o, hp, ho, hdel⟩ := hI.managed b cb hcb
  have hfr := hI.freed b cb hcb
  have hfr0 : cb.freed = 0 := by rw [hfr]; simp; omega
  by_cases h1 : g b = 1
  · have hshape : SameShape s
        { objects := s.objects.set a { o with deleted := o.deleted + 1 },
          blocks := s.blocks.set b { cb with m_counter := 0, freed := cb.freed + 1 },
          handles := s.handles } :=
      ⟨rfl, map_set_same _ _ _ cb _ hcb rfl, map_set_same _ _ _ o _ ho rfl⟩
    refine ⟨_, release_last s h b a cb o hr hcb (by rw [hw, h1]; rfl) hp ho, hshape, ?_⟩
    refine ⟨?_, ?_, ?_, ?_, ?_, ?_⟩
    · intro b2 cb2 h2
      simp only [List.getElem?_set] at h2
      by_cases hb : b = b2
      · subst hb
        simp [hlt] at h2
        subst h2
        simp [h1]
      · simp [hb] at h2
        rw [Function.update_noteq (Ne.symm hb)]
        exact hI.counter b2 cb2 h2
    · intro b2 cb2 h2
      simp only [List.getElem?_set] at h2
      by_cases hb : b = b2
      · subst hb
        simp [hlt] at h2
        subst h2
        simp [h1, hfr0]
      · simp [hb] at h2
        rw [Function.update_noteq (Ne.symm hb)]
        exact hI.freed b2 cb2 h2
    · intro b2 cb2 h2
      simp only [List.getElem?_set] at h2
      by_cases hb : b = b2
      · subst hb
        simp [hlt] at h2
        subst h2
        refine ⟨a, { o with deleted := o.deleted + 1 }, hp, ?_, ?_⟩
        · simp [List.getElem?_set, lookup_lt _ _ _ ho]
        · simp [hdel]
      · simp [hb] at h2
        obtain ⟨a2, o2, hp2, ho2, hd2⟩ := hI.managed b2 cb2 h2
        refine ⟨a2, o2, hp2, ?_, hd2⟩
        have hne : a ≠ a2 := by
          intro he
          apply hb
          exact ptr_inj s hI.inj b b2 cb cb2 hcb h2 (by rw [hp, hp2, he])
        simp [List.getElem?_set, hne, ho2]
    · rw [hshape.ptrs]
      exact hI.inj
    · intro a2 o2 h2 hn
      rw [hshape.ptrs] at hn
      simp only [List.getElem?_set] at h2
      by_cases ha : a = a2
      · subst ha
        exact absurd (hp ▸ ptr_mem s b cb hcb) hn
      · simp [ha] at h2
        exact hI.unmanaged a2 o2 h2 hn
    · intro b2 h2
      have : (List.map ControlBlock.m_ptr (s.blocks.set b
          { cb with m_counter := 0, freed := cb.freed + 1 })).length = s.blocks.length := by
        simp
      by_cases hb : b2 = b
      · subst hb
        simpa using hlt
      · rw [Function.update_noteq hb] at h2
        simpa using hI.valid b2 h2
  · have hshape : SameShape s { s with
        blocks := s.blocks.set b { cb with m_counter := wrapLong (cb.m_counter - 1) } } :=
      ⟨rfl, map_set_same _ _ _ cb _ hcb rfl, rfl⟩
    refine ⟨_, release_shared s h b cb hr hcb (by rw [hw]; omega), hshape, ?_⟩
    refine ⟨?_, ?_, ?_, ?_, ?_, ?_⟩
    · intro b2 cb2 h2
      simp only [List.getElem?_set] at h2
      by_cases hb : b = b2
      · subst hb
        simp [hlt] at h2
        subst h2
        simp [hw]
        omega
      · simp [hb] at h2
        rw [Function.update_noteq (Ne.symm hb)]
        exact hI.counter b2 cb2 h2
    · intro b2 cb2 h2
      simp only [List.getElem?_set] at h2
      by_cases hb : b = b2
      · subst hb
        simp [hlt] at h2
        subst h2
        have hne : g b - 1 ≠ 0 := by omega
        simp [hfr0, hne]
      · simp [hb] at h2
        rw [Function.update_noteq (Ne.symm hb)]
        exact hI.freed b2 cb2 h2
    · intro b2 cb2 h2
      simp only [List.getElem?_set] at h2
      by_cases hb : b = b2
      · subst hb
        simp [hlt] at h2
        subst h2
        exact ⟨a, o, hp, ho, hdel⟩
      · simp [hb] at h2
        exact hI.managed b2 cb2 h2
    · rw [hshape.ptrs]
      exact hI.inj
    · intro a2 o2 h2 hn
      rw [hshape.ptrs] at hn
      exact hI.unmanaged a2 o2 h2 hn
    · intro b2 h2
      by_cases hb : b2 = b
      · subst hb
        simpa using hlt
      · rw [Function.update_noteq hb] at h2
        simpa using hI.valid b2 h2

theorem inc_spec (s : State) (g : Nat → Nat) (b : Nat) (hI : BlocksOk s g)
    (hpos : 0 < g b) (hle : (g b : Int) < LONG_MAX) :
    ∃ s1, ControlBlock.inc s b = some s1 ∧ SameShape s s1 ∧
      BlocksOk s1 (Function.update g b (g b + 1)) := by
  have hlt := hI.valid b hpos
  obtain ⟨cb, hcb⟩ := lookup_of_lt s.blocks b hlt
  have hcnt := hI.counter b cb hcb
  have hw : wrapLong (cb.m_counter + 1) = (g b : Int) + 1 := by
    rw [hcnt]
    apply wrapLong_id <;> (unfold LONG_MAX at *; omega)
  have hfr := hI.freed b cb hcb
  have hshape : SameShape s { s with
      blocks := s.blocks.set b { cb with m_counter := wrapLong (cb.m_counter + 1) } } :=
    ⟨rfl, map_set_same _ _ _ cb _ hcb rfl, rfl⟩
  refine ⟨_, by simp [ControlBlock.inc, hcb], hshape, ?_⟩
  refine ⟨?_, ?_, ?_, ?_, ?_, ?_⟩
  · intro b2 cb2 h2
    simp only [List.getElem?_set] at h2
    by_cases hb : b = b2
    · subst hb
      simp [hlt] at h2
      subst h2
      simp [hw]
    · simp [hb] at h2
      rw [Function.update_noteq (Ne.symm hb)]
      exact hI.counter b2 cb2 h2
  · intro b2 cb2 h2
    simp only [List.getElem?_set] at h2
    by_cases hb : b = b2
    · subst hb
      simp [hlt] at h2
      subst h2
      have hne : g b ≠ 0 := by omega
      simp [hfr, hne]
    · simp [hb] at h2
      rw [Function.update_noteq (Ne.symm hb)]
      exact hI.freed b2 cb2 h2
  · intro b2 cb2 h2
    simp only [List.getElem?_set] at h2
    by_cases hb : b = b2
    · subst hb
      simp [hlt] at h2
      subst h2
      exact hI.managed b cb hcb
    · simp [hb] at h2
      exact hI.managed b2 cb2 h2
  · rw [hshape.ptrs]
    exact hI.inj
  · intro a2 o2 h2 hn
    rw [hshape.ptrs] at hn
    exact hI.unmanaged a2 o2 h2 hn
  · intro b2 h2
    by_cases hb : b2 = b
    · subst hb
      simpa using hlt
    · rw [Function.update_noteq hb] at h2
      simpa using hI.valid b2 h2

theorem fresh_iff (s : State) (a : Nat) :
    fresh s (some a) = true ↔
      ∃ o, s.objects[a]? = some o ∧ o.deleted = 0 ∧
        some a ∉ s.blocks.map ControlBlock.m_ptr := by
  unfold fresh
  cases h : s.objects[a]? with
  | none => simp [h]
  | some o => simp [h, List.mem_map]

theorem fresh_none (s : State) : fresh s none = false := rfl

theorem no_owner_at_end (s : State) (g : Nat → Nat) (hI : BlocksOk s g) :
    g s.blocks.length = 0 := by
  by_contra h
  have := hI.valid s.blocks.length (Nat.pos_of_ne_zero h)
  omega

theorem push_block_spec (s : State) (g : Nat → Nat) (a : Nat) (hI : BlocksOk s g)
    (hf : fresh s (some a) = true) :
    BlocksOk { s with blocks := s.blocks ++ [⟨some a, 1, 0⟩] }
      (Function.update g s.blocks.length 1) := by
  obtain ⟨o, ho, hd, hn⟩ := (fresh_iff s a).1 hf
  refine ⟨?_, ?_, ?_, ?_, ?_, ?_⟩
  · intro b2 cb2 h2
    simp only [List.getElem?_append] at h2
    by_cases hb : b2 < s.blocks.length
    · simp only [hb, if_true] at h2
      rw [Function.update_noteq (by omega)]
      exact hI.counter b2 cb2 h2
    · simp only [hb, if_false] at h2
      have hlt := lookup_lt _ _ _ h2
      simp at hlt
      have hb2 : b2 = s.blocks.length := by omega
      subst hb2
      simp at h2
      subst h2
      simp
  · intro b2 cb2 h2
    simp only [List.getElem?_append] at h2
    by_cases hb : b2 < s.blocks.length
    · simp only [hb, if_true] at h2
      rw [Function.update_noteq (by omega)]
      exact hI.freed b2 cb2 h2
    · simp only [hb, if_false] at h2
      have hlt := lookup_lt _ _ _ h2
      simp at hlt
      have hb2 : b2 = s.blocks.length := by omega
      subst hb2
      simp at h2
      subst h2
      simp
  · intro b2 cb2 h2
    simp only [List.getElem?_append] at h2
    by_cases hb : b2 < s.blocks.length
    · simp only [hb, if_true] at h2
      exact hI.managed b2 cb2 h2
    · simp only [hb, if_false] at h2
      have hlt := lookup_lt _ _ _ h2
      simp at hlt
      have hb2 : b2 = s.blocks.length := by omega
      subst hb2
      simp at h2
      subst h2
      exact ⟨a, o, rfl, ho, hd⟩
  · simp only [List.map_append, List.map_cons, List.map_nil]
    rw [List.nodup_append]
    refine ⟨hI.inj, List.nodup_singleton _, ?_⟩
    intro x hx hx2
    simp at hx2
    subst hx2
    exact hn hx
  · intro a2 o2 h2 hn2
    simp only [List.map_append, List.map_cons, List.map_nil, List.mem_append] at hn2
    exact hI.unmanaged a2 o2 h2 (fun hm => hn2 (Or.inl hm))
  · intro b2 h2
    simp only [List.length_append, List.length_singleton]
    by_cases hb : b2 = s.blocks.length
    · omega
    · rw [Function.update_noteq hb] at h2
      have := hI.valid b2 h2
      omega

theorem new_obj_spec (s : State) (g : Nat → Nat) (v : Int) (hI : BlocksOk s g) :
    BlocksOk (new_obj s v) g := by
  refine ⟨hI.counter, hI.freed, ?_, hI.inj, ?_, hI.valid⟩
  · intro b2 cb2 h2
    obtain ⟨a, o, hp, ho, hd⟩ := hI.managed b2 cb2 h2
    refine ⟨a, o, hp, ?_, hd⟩
    simp only [new_obj]
    rw [List.getElem?_append_left (lookup_lt _ _ _ ho)]
    exact ho
  · intro a2 o2 h2 hn
    simp only [new_obj, List.getElem?_append] at h2
    by_cases ha : a2 < s.objects.length
    · simp only [ha, if_true] at h2
      exact hI.unmanaged a2 o2 h2 hn
    · simp only [ha, if_false] at h2
      have hlt := lookup_lt _ _ _ h2
      simp at hlt
      have ha2 : a2 = s.objects.length := by omega
      subst ha2
      simp at h2
      subst h2
      rfl

theorem set_value_spec (s : State) (g : Nat → Nat) (a : Nat) (o : Obj) (w : Int)
    (hI : BlocksOk s g) (ho : s.objects[a]? = some o) :
    BlocksOk { s with objects := s.objects.set a { o with value := w } } g := by
  have hlt := lookup_lt _ _ _ ho
  refine ⟨hI.counter, hI.freed, ?_, hI.inj, ?_, hI.valid⟩
  · intro b2 cb2 h2
    obtain ⟨a2, o2, hp, ho2, hd⟩ := hI.managed b2 cb2 h2
    by_cases ha : a = a2
    · subst ha
      refine ⟨a, { o with value := w }, hp, ?_, ?_⟩
      · simp [List.getElem?_set, hlt]
      · rw [ho] at ho2
        cases ho2
        exact hd
    · refine ⟨a2, o2, hp, ?_, hd⟩
      simp [List.getElem?_set, ha, ho2]
  · intro a2 o2 h2 hn
    simp only [List.getElem?_set] at h2
    by_cases ha : a = a2
    · subst ha
      simp [hlt] at h2
      subst h2
      exact hI.unmanaged a o ho hn
    · simp [ha] at h2
      exact hI.unmanaged a2 o2 h2 hn

theorem block_ref_iff (s : State) (h : Nat) (r : Option Nat) :
    block_ref s h = some r ↔ s.handles[h]? = some (some ⟨r⟩) := by
  unfold block_ref
  cases hh : s.handles[h]? with
  | none => simp [hh]
  | some x =>
    cases x with
    | none => simp [hh]
    | some sp =>
      cases sp with
      | mk m => simp [hh]

theorem block_ref_handles (s s1 : State) (hh : s1.handles = s.handles) (h : Nat) :
    block_ref s1 h = block_ref s h := by
  unfold block_ref
  rw [hh]

theorem refs_push (s : State) (x : Option SharedPtr) (b : Nat) :
    refs { s with handles := s.handles ++ [x] } b =
      refs s b + if x = some ⟨some b⟩ then 1 else 0 := by
  simp [refs, List.count_append, List.count_singleton]

theorem refs_set (s : State) (h : Nat) (x y : Option SharedPtr)
    (hy : s.handles[h]? = some y) (b : Nat) :
    refs { s with handles := s.handles.set h x } b =
      refs s b - (if y = some ⟨some b⟩ then 1 else 0) +
        (if x = some ⟨some b⟩ then 1 else 0) := by
  have hlt := lookup_lt _ _ _ hy
  have hget : s.handles[h] = y := by
    rw [List.getElem?_eq_getElem hlt] at hy
    exact Option.some.inj hy
  simp [refs, List.count_set _ _ _ _ hlt, hget]

theorem refs_le (s : State) (b : Nat) : refs s b ≤ s.handles.length :=
  List.count_le_length _ _

theorem refs_pos (s : State) (h b : Nat) (hr : block_ref s h = some (some b)) :
    0 < refs s b := by
  rw [block_ref_iff] at hr
  exact List.count_pos_iff.2 (List.getElem?_mem hr)

theorem refs_two (s : State) (h h2 b : Nat) (hne : h ≠ h2)
    (hr : block_ref s h = some (some b)) (hr2 : block_ref s h2 = some (some b)) :
    1 < refs s b := by
  rw [block_ref_iff] at hr hr2
  have h1 := refs_set s h none _ hr b
  have hx : (s.handles.set h none)[h2]? = some (some ⟨some b⟩) := by
    simp [List.getElem?_set, hne, hr2]
  have hpos : 0 < refs { s with handles := s.handles.set h none } b :=
    List.count_pos_iff.2 (List.getElem?_mem hx)
  simp at h1
  omega

theorem refs_handles (s s1 : State) (hh : s1.handles = s.handles) (b : Nat) :
    refs s1 b = refs s b := by
  unfold refs
  rw [hh]

theorem default_ctor_spec (s : State) (hI : Inv s) :
    Post (new_handle s) (s.handles ++ [some ⟨none⟩])
      (s.blocks.map ControlBlock.m_ptr) (s.objects.map Obj.value) := by
  refine ⟨?_, rfl, rfl, rfl⟩
  have hg : refs (new_handle s) = refs s := by
    funext b
    simp [new_handle, refs_push]
  unfold Inv
  rw [hg]
  exact (blocksOk_handles s _ _).2 hI

theorem copy_from_spec (s : State) (g : Nat → Nat) (h another b : Nat) (r : Option Nat)
    (hI : BlocksOk s g) (hr : block_ref s h = some r)
    (ha : block_ref s another = some (some b)) (hpos : 0 < g b)
    (hle : (g b : Int) < LONG_MAX) :
    ∃ s1, copy_from s h another = .ok s1 ∧
      s1.handles = s.handles.set h (some ⟨some b⟩) ∧
      s1.blocks.map ControlBlock.m_ptr = s.blocks.map ControlBlock.m_ptr ∧
      s1.objects.map Obj.value = s.objects.map Obj.value ∧
      BlocksOk s1 (Function.update g b (g b + 1)) := by
  obtain ⟨s1, h1, hsh, hok⟩ := inc_spec { s with handles := s.handles.set h (some ⟨some b⟩) }
    g b ((blocksOk_handles s _ g).2 hI) hpos hle
  refine ⟨s1, ?_, hsh.handles, hsh.ptrs, hsh.values, hok⟩
  simp [copy_from, ha, set_block_ref, hr, h1]

theorem acquire_spec (s : State) (g : Nat → Nat) (h a : Nat) (r : Option Nat)
    (hI : BlocksOk s g) (hr : block_ref s h = some r) (hf : fresh s (some a) = true) :
    acquire s h (some a) true = .ok
        { s with blocks := s.blocks ++ [⟨some a, 1, 0⟩],
                 handles := s.handles.set h (some ⟨some s.blocks.length⟩) } ∧
      BlocksOk { s with blocks := s.blocks ++ [⟨some a, 1, 0⟩],
                        handles := s.handles.set h (some ⟨some s.blocks.length⟩) }
        (Function.update g s.blocks.length 1) := by
  constructor
  · have : block_ref { s with blocks := s.blocks ++ [⟨some a, 1, 0⟩] } h = some r := hr
    simp [acquire, set_block_ref, this]
  · exact (blocksOk_handles { s with blocks := s.blocks ++ [⟨some a, 1, 0⟩] } _ _).2
      (push_block_spec s g a hI hf)

theorem fresh_of_shape (s s1 : State) (g : Nat → Nat) (a : Nat) (hI : BlocksOk s1 g)
    (hsh : SameShape s s1) (hf : fresh s (some a) = true) : fresh s1 (some a) = true := by
  obtain ⟨o, ho, _, hn⟩ := (fresh_iff s a).1 hf
  have hlen : s1.objects.length = s.objects.length := by
    have := congrArg List.length hsh.values
    simpa using this
  obtain ⟨o1, ho1⟩ := lookup_of_lt s1.objects a (by rw [hlen]; exact lookup_lt _ _ _ ho)
  rw [← hsh.ptrs] at hn
  exact (fresh_iff s1 a).2 ⟨o1, ho1, hI.unmanaged a o1 ho1 hn, hn⟩

theorem refs_of_push (s s1 : State) (x : Option SharedPtr)
    (hh : s1.handles = s.handles ++ [x]) (b : Nat) :
    refs s1 b = refs s b + if x = some ⟨some b⟩ then 1 else 0 := by
  unfold refs
  rw [hh]
  simp [List.count_append, List.count_singleton]

theorem refs_of_set (s s1 : State) (h : Nat) (x : Option SharedPtr) (r : Option Nat)
    (hh : s1.handles = s.handles.set h x) (hr : block_ref s h = some r) (b : Nat) :
    refs s1 b = refs s b - (if r = some b then 1 else 0) +
        (if x = some ⟨some b⟩ then 1 else 0) := by
  rw [block_ref_iff] at hr
  have := refs_set s h x _ hr b
  unfold refs at this ⊢
  rw [hh]
  simpa using this

theorem release_handle_spec (s : State) (h : Nat) (r : Option Nat) (hI : Inv s)
    (hbd : (s.handles.length : Int) < LONG_MAX) (hr : block_ref s h = some r) :
    ∃ s1, release s h = .ok s1 ∧ SameShape s s1 ∧
      BlocksOk s1 (fun b2 => refs s b2 - if r = some b2 then 1 else 0) := by
  cases r with
  | none =>
    refine ⟨s, release_absent s h hr, ⟨rfl, rfl, rfl⟩, ?_⟩
    simpa using hI
  | some b =>
    have hle : (refs s b : Int) ≤ LONG_MAX := by
      have := refs_le s b
      omega
    obtain ⟨s1, h1, hsh, hok⟩ := release_spec s (refs s) h b hI hr (refs_pos s h b hr) hle
    refine ⟨s1, h1, hsh, ?_⟩
    have hg : (fun b2 => refs s b2 - if some b = some b2 then 1 else 0) =
        Function.update (refs s) b (refs s b - 1) := by
      funext b2
      by_cases hb : b2 = b
      · subst hb
        simp
      · rw [Function.update_noteq hb]
        have : ¬ b = b2 := fun e => hb e.symm
        simp [this]
    rw [hg]
    exact hok

theorem copy_ctor_absent (s : State) (another : Nat) (hI : Inv s)
    (ha : block_ref s another = some none) :
    copy_ctor s another = .ok (new_handle s) ∧
      Post (new_handle s) (s.handles ++ [some ⟨none⟩])
        (s.blocks.map ControlBlock.m_ptr) (s.objects.map Obj.value) :=
  ⟨by simp [copy_ctor, ha], default_ctor_spec s hI⟩

theorem copy_ctor_spec (s : State) (another b : Nat) (hI : Inv s)
    (hbd : (s.handles.length : Int) < LONG_MAX)
    (ha : block_ref s another = some (some b)) :
    ∃ s1, copy_ctor s another = .ok s1 ∧
      Post s1 (s.handles ++ [some ⟨some b⟩])
        (s.blocks.map ControlBlock.m_ptr) (s.objects.map Obj.value) := by
  have ha0 := (block_ref_iff s another _).1 ha
  have hlt := lookup_lt _ _ _ ha0
  have hnew : block_ref (new_handle s) s.handles.length = some none := by
    rw [block_ref_iff]
    simp [new_handle]
  have hanother : block_ref (new_handle s) another = some (some b) := by
    rw [block_ref_iff]
    simp only [new_handle]
    rw [List.getElem?_append_left hlt]
    exact ha0
  have hle : (refs s b : Int) < LONG_MAX := by
    have := refs_le s b
    omega
  obtain ⟨s1, h1, hh, hp, hv, hok⟩ := copy_from_spec (new_handle s) (refs s)
    s.handles.length another b none ((blocksOk_handles s _ _).2 hI) hnew hanother
    (refs_pos s another b ha) hle
  have hh2 : s1.handles = s.handles ++ [some ⟨some b⟩] := by
    rw [hh]
    simp [new_handle]
  refine ⟨s1, by simp [copy_ctor, ha, h1], ?_, hh2, hp, hv⟩
  have hg : refs s1 = Function.update (refs s) b (refs s b + 1) := by
    funext b2
    rw [refs_of_push s s1 _ hh2 b2]
    by_cases hb : b2 = b
    · subst hb
      simp
    · rw [Function.update_noteq hb]
      have : ¬ b = b2 := fun e => hb e.symm
      simp [this]
  unfold Inv
  rw [hg]
  exact hok

theorem ptr_ctor_eq (s : State) (a : Nat) :
    ptr_ctor s (some a) true = .ok
      { objects := s.objects, blocks := s.blocks ++ [⟨some a, 1, 0⟩],
        handles := s.handles ++ [some ⟨some s.blocks.length⟩] } := by
  have hnew : block_ref { new_handle s with
      blocks := (new_handle s).blocks ++ [⟨some a, 1, 0⟩] } s.handles.length = some none := by
    rw [block_ref_iff]
    simp [new_handle]
  simp [ptr_ctor, acquire, set_block_ref, hnew]
  simp [new_handle]

theorem ptr_ctor_spec (s : State) (a : Nat) (hI : Inv s) (hf : fresh s (some a) = true) :
    ∃ s1, ptr_ctor s (some a) true = .ok s1 ∧
      Post s1 (s.handles ++ [some ⟨some s.blocks.length⟩])
        (s.blocks.map ControlBlock.m_ptr ++ [some a]) (s.objects.map Obj.value) := by
  refine ⟨_, ptr_ctor_eq s a, ?_, rfl, by simp, rfl⟩
  have hg : refs (⟨s.objects, s.blocks ++ [⟨some a, 1, 0⟩],
        s.handles ++ [some ⟨some s.blocks.length⟩]⟩ : State) =
      Function.update (refs s) s.blocks.length 1 := by
    funext b2
    rw [refs_of_push s _ (some ⟨some s.blocks.length⟩) rfl b2]
    by_cases hb : b2 = s.blocks.length
    · subst hb
      simp [no_owner_at_end s _ hI]
    · rw [Function.update_noteq hb]
      have : ¬ s.blocks.length = b2 := fun e => hb e.symm
      simp [this]
  unfold Inv
  rw [hg]
  exact (blocksOk_handles { s with blocks := s.blocks ++ [⟨some a, 1, 0⟩] } _ _).2
    (push_block_spec s _ a hI hf)

theorem dtor_spec (s : State) (h : Nat) (r : Option Nat) (hI : Inv s)
    (hbd : (s.handles.length : Int) < LONG_MAX) (hr : block_ref s h = some r) :
    ∃ s1, dtor s h = .ok s1 ∧
      Post s1 (s.handles.set h none)
        (s.blocks.map ControlBlock.m_ptr) (s.objects.map Obj.value) := by
  obtain ⟨s1, h1, hsh, hok⟩ := release_handle_spec s h r hI hbd hr
  refine ⟨{ s1 with handles := s1.handles.set h none }, by simp [dtor, h1], ?_,
    by simp [hsh.handles], hsh.ptrs, hsh.values⟩
  have hg : refs { s1 with handles := s1.handles.set h none } =
      (fun b2 => refs s b2 - if r = some b2 then 1 else 0) := by
    funext b2
    rw [refs_of_set s _ h none r (by simp [hsh.handles]) hr b2]
    simp
  unfold Inv
  rw [hg]
  exact (blocksOk_handles s1 _ _).2 hok

theorem assign_spec (s : State) (h another b : Nat) (r : Option Nat) (hI : Inv s)
    (hbd : (s.handles.length : Int) < LONG_MAX) (hne : h ≠ another)
    (hr : block_ref s h = some r) (ha : block_ref s another = some (some b)) :
    ∃ s1, assign s h another = .ok s1 ∧
      Post s1 (s.handles.set h (some ⟨some b⟩))
        (s.blocks.map ControlBlock.m_ptr) (s.objects.map Obj.value) := by
  obtain ⟨s1, h1, hsh, hok⟩ := release_handle_spec s h r hI hbd hr
  have hr1 : block_ref s1 h = some r := by
    rw [block_ref_handles _ _ hsh.handles]
    exact hr
  have ha1 : block_ref s1 another = some (some b) := by
    rw [block_ref_handles _ _ hsh.handles]
    exact ha
  have hpos : 0 < refs s b - if r = some b then 1 else 0 := by
    by_cases hrb : r = some b
    · subst hrb
      have := refs_two s h another b hne hr ha
      simp
      omega
    · have := refs_pos s another b ha
      simp [hrb]
      omega
  have hle : ((refs s b - if r = some b then 1 else 0 : Nat) : Int) < LONG_MAX := by
    have := refs_le s b
    omega
  obtain ⟨s2, h2, hh, hp, hv, hok2⟩ := copy_from_spec s1
    (fun b2 => refs s b2 - if r = some b2 then 1 else 0) h another b r hok hr1 ha1 hpos hle
  rw [hsh.handles] at hh
  refine ⟨s2, by simp [assign, hr, ha, hne, h1, h2], ?_, hh, hp.trans hsh.ptrs,
    hv.trans hsh.values⟩
  have hg : refs s2 = Function.update (fun b2 => refs s b2 - if r = some b2 then 1 else 0) b
      ((refs s b - if r = some b then 1 else 0) + 1) := by
    funext b2
    rw [refs_of_set s s2 h _ r hh hr b2]
    by_cases hb : b2 = b
    · subst hb
      simp
    · rw [Function.update_noteq hb]
      have : ¬ b = b2 := fun e => hb e.symm
      simp [this]
  unfold Inv
  rw [hg]
  exact hok2

theorem reset_spec (s : State) (h a : Nat) (r : Option Nat) (hI : Inv s)
    (hbd : (s.handles.length : Int) < LONG_MAX)
    (hr : block_ref s h = some r) (hf : fresh s (some a) = true) :
    ∃ s1, reset s h (some a) true = .ok s1 ∧
      Post s1 (s.handles.set h (some ⟨some s.blocks.length⟩))
        (s.blocks.map ControlBlock.m_ptr ++ [some a]) (s.objects.map Obj.value) := by
  obtain ⟨s1, h1, hsh, hok⟩ := release_handle_spec s h r hI hbd hr
  have hr1 : block_ref s1 h = some r := by
    rw [block_ref_handles _ _ hsh.handles]
    exact hr
  have hlen : s1.blocks.length = s.blocks.length := by
    have := congrArg List.length hsh.ptrs
    simpa using this
  obtain ⟨h2, hok2⟩ := acquire_spec s1 _ h a r hok hr1 (fresh_of_shape s s1 _ a hok hsh hf)
  rw [hlen] at h2 hok2
  refine ⟨(⟨s1.objects, s1.blocks ++ [⟨some a, 1, 0⟩],
      s1.handles.set h (some ⟨some s.blocks.length⟩)⟩ : State), ?_, ?_, ?_, ?_, hsh.values⟩
  · simp only [reset, h1, h2]
  · have hg : refs (⟨s1.objects, s1.blocks ++ [⟨some a, 1, 0⟩],
          s1.handles.set h (some ⟨some s.blocks.length⟩)⟩ : State) =
        Function.update (fun b2 => refs s b2 - if r = some b2 then 1 else 0)
          s.blocks.length 1 := by
      funext b2
      rw [refs_of_set s _ h (some ⟨some s.blocks.length⟩) r (by simp [hsh.handles]) hr b2]
      by_cases hb : b2 = s.blocks.length
      · subst hb
        simp [no_owner_at_end s _ hI]
      · rw [Function.update_noteq hb]
        have : ¬ s.blocks.length = b2 := fun e => hb e.symm
        simp [this]
    unfold Inv
    rw [hg]
    exact hok2
  · simp [hsh.handles]
  · simp [hsh.ptrs]

theorem store_spec (s : State) (h b : Nat) (w : Int) (hI : Inv s)
    (hr : block_ref s h = some (some b)) :
    ∃ s1 a, store s h w = .ok s1 ∧ deref s h = some a ∧
      Post s1 s.handles (s.blocks.map ControlBlock.m_ptr)
        ((s.objects.map Obj.value).set a w) := by
  have hlt := hI.valid b (refs_pos s h b hr)
  obtain ⟨cb, hcb⟩ := lookup_of_lt s.blocks b hlt
  obtain ⟨a, o, hp, ho, _⟩ := hI.managed b cb hcb
  have hd : deref s h = some a := by
    simp [deref, hr, ControlBlock.deref, hcb, hp]
  refine ⟨{ s with objects := s.objects.set a { o with value := w } }, a,
    by simp [store, hr, hd, ho], hd, ?_, rfl, rfl, ?_⟩
  · exact set_value_spec s _ a o w hI ho
  · simp [List.map_set]

theorem alloc_spec (s : State) (v : Int) (hI : Inv s) :
    Post (new_obj s v) s.handles (s.blocks.map ControlBlock.m_ptr)
      (s.objects.map Obj.value ++ [v]) :=
  ⟨new_obj_spec s _ v hI, rfl, rfl, by simp [new_obj]⟩

theorem delete_obj_handles (s s1 : State) (p : Option Nat)
    (he : delete_obj s p = some s1) : s1.handles = s.handles := by
  unfold delete_obj at he
  split at he
  · cases he
    rfl
  · split at he
    · cases he
    · cases he
      rfl

theorem delete_block_handles (s s1 : State) (b : Nat)
    (he : delete_block s b = some s1) : s1.handles = s.handles := by
  unfold delete_block at he
  split at he
  · cases he
  · cases he
    rfl

theorem dec_handles (s s1 : State) (b : Nat) (t : Bool)
    (he : ControlBlock.dec s b = some (t, s1)) : s1.handles = s.handles := by
  unfold ControlBlock.dec at he
  split at he
  · cases he
  · simp only at he
    split at he
    · split at he
      · cases he
      · rename_i s2 h2
        cases he
        have h3 := delete_obj_handles _ _ _ h2
        exact h3
    · cases he
      rfl

theorem release_handles (s s1 : State) (h : Nat) (he : release s h = .ok s1) :
    s1.handles = s.handles := by
  unfold release at he
  split at he
  · cases he
  · cases he
    rfl
  · split at he
    · cases he
    · rename_i s2 h2
      have h3 := dec_handles _ _ _ _ h2
      cases he
      exact h3
    · rename_i s2 h2
      have h3 := dec_handles _ _ _ _ h2
      split at he
      · cases he
      · rename_i s3 h4
        cases he
        rw [delete_block_handles _ _ _ h4]
        exact h3

theorem inc_handles (s s1 : State) (b : Nat) (he : ControlBlock.inc s b = some s1) :
    s1.handles = s.handles := by
  unfold ControlBlock.inc at he
  split at he
  · cases he
  · cases he
    rfl

theorem set_block_ref_len (s s1 : State) (h : Nat) (r : Option Nat)
    (he : set_block_ref s h r = .ok s1) : s1.handles.length = s.handles.length := by
  unfold set_block_ref at he
  split at he
  · cases he
  · cases he
    simp

theorem copy_from_len (s s1 : State) (h another : Nat) (he : copy_from s h another = .ok s1) :
    s1.handles.length = s.handles.length := by
  unfold copy_from at he
  split at he
  · cases he
  · split at he
    · cases he
    · rename_i s2 h2
      have h3 := set_block_ref_len _ _ _ _ h2
      split at he
      · cases he
      · split at he
        · cases he
        · rename_i s3 h4
          cases he
          rw [inc_handles _ _ _ h4]
          exact h3

theorem acquire_len (s s1 : State) (h : Nat) (p : Option Nat) (mem : Bool)
    (he : acquire s h p mem = .ok s1) : s1.handles.length = s.handles.length := by
  unfold acquire at he
  split at he
  · cases he
  · split at he
    · unfold set_block_ref at he
      split at he
      · cases he
      · cases he
        simp
    · cases he

theorem exec_len (s s1 : State) (op : Op) (he : exec s op = .ok s1) :
    s.handles.length ≤ s1.handles.length := by
  cases op with
  | default_ctor =>
    simp only [exec, default_ctor] at he
    cases he
    simp [new_handle]
  | copy_ctor another =>
    simp only [exec, copy_ctor] at he
    split at he
    · cases he
    · cases he
      simp [new_handle]
    · have := copy_from_len _ _ _ _ he
      simp [new_handle] at this
      omega
  | ptr_ctor ptr mem =>
    simp only [exec, ptr_ctor] at he
    split at he
    · rename_i s2 h2
      cases he
      have := acquire_len _ _ _ _ _ h2
      simp [new_handle] at this
      omega
    · cases he
  | assign h another =>
    simp only [exec, assign] at he
    split at he
    · split at he
      · split at he
        · cases he
        · rename_i s2 h2
          have h3 := copy_from_len _ _ _ _ he
          rw [release_handles _ _ _ h2] at h3
          omega
      · cases he
        exact Nat.le_refl _
    · cases he
  | dtor h =>
    simp only [exec, dtor] at he
    split at he
    · cases he
    · rename_i s2 h2
      cases he
      simp [release_handles _ _ _ h2]
  | reset h ptr mem =>
    simp only [exec, reset] at he
    split at he
    · cases he
    · rename_i s2 h2
      have h3 := acquire_len _ _ _ _ _ he
      rw [release_handles _ _ _ h2] at h3
      omega
  | alloc v =>
    simp only [exec] at he
    cases he
    exact Nat.le_refl _
  | store h w =>
    simp only [exec, store] at he
    split at he
    · cases he
    · cases he
    · split at he
      · cases he
      · split at he
        · cases he
        · cases he
          exact Nat.le_refl _

theorem run_len (ops : List Op) (s s1 : State) (he : run s ops = .ok s1) :
    s.handles.length ≤ s1.handles.length := by
  induction ops generalizing s with
  | nil =>
    simp only [run] at he
    cases he
    exact Nat.le_refl _
  | cons op rest ih =>
    simp only [run] at he
    split at he
    · rename_i s2 h2
      exact Nat.le_trans (exec_len _ _ _ h2) (ih _ he)
    · cases he

theorem exec_post (s s1 : State) (op : Op) (hI : Inv s)
    (hbd : (s.handles.length : Int) < LONG_MAX) (hf : op.fresh s = true)
    (he : exec s op = .ok s1) :
    Inv s1 ∧ s1.handles = handles_after s op ∧
      (∃ ps, s1.blocks.map ControlBlock.m_ptr = s.blocks.map ControlBlock.m_ptr ++ ps) ∧
      s.objects.length ≤ s1.objects.length := by
  have hvl : ∀ (t : State) (vs : List Int), t.objects.map Obj.value = vs →
      t.objects.length = vs.length := by
    intro t vs hv
    rw [← hv]
    simp
  cases op with
  | default_ctor =>
    simp only [exec, default_ctor] at he
    cases he
    exact ⟨(default_ctor_spec s hI).inv, rfl, ⟨[], by simp [new_handle]⟩, Nat.le_refl _⟩
  | copy_ctor another =>
    simp only [exec] at he
    cases hr : block_ref s another with
    | none => simp [copy_ctor, hr] at he
    | some r =>
      cases r with
      | none =>
        obtain ⟨h1, hp⟩ := copy_ctor_absent s another hI hr
        rw [h1] at he
        cases he
        exact ⟨hp.inv, by simp [handles_after, hr, new_handle], ⟨[], by simp [new_handle]⟩,
          Nat.le_refl _⟩
      | some b =>
        obtain ⟨s2, h1, hp⟩ := copy_ctor_spec s another b hI hbd hr
        rw [h1] at he
        cases he
        exact ⟨hp.inv, by simp [handles_after, hr, hp.handles], ⟨[], by simp [hp.ptrs]⟩,
          by rw [hvl _ _ hp.values]; simp⟩
  | ptr_ctor ptr mem =>
    simp only [exec] at he
    cases ptr with
    | none => simp [Op.fresh, fresh] at hf
    | some a =>
      cases mem with
      | false => simp [ptr_ctor, acquire] at he
      | true =>
        obtain ⟨s2, h1, hp⟩ := ptr_ctor_spec s a hI hf
        rw [h1] at he
        cases he
        exact ⟨hp.inv, by simp [handles_after, hp.handles], ⟨[some a], hp.ptrs⟩,
          by rw [hvl _ _ hp.values]; simp⟩
  | assign h another =>
    simp only [exec] at he
    cases hr : block_ref s h with
    | none => simp [assign, hr] at he
    | some r =>
      cases ha : block_ref s another with
      | none => simp [assign, hr, ha] at he
      | some r2 =>
        by_cases hne : h = another
        · simp [assign, hr, ha, hne] at he
          rw [← he]
          exact ⟨hI, by simp [handles_after, hne], ⟨[], by simp⟩, Nat.le_refl _⟩
        · cases r2 with
          | none =>
            obtain ⟨s2, h1, hsh, _⟩ := release_handle_spec s h r hI hbd hr
            have hr1 : block_ref s2 h = some r := by
              rw [block_ref_handles _ _ hsh.handles]
              exact hr
            have ha1 : block_ref s2 another = some none := by
              rw [block_ref_handles _ _ hsh.handles]
              exact ha
            simp [assign, hr, ha, hne, h1, copy_from, ha1, set_block_ref, hr1] at he
          | some b =>
            obtain ⟨s2, h1, hp⟩ := assign_spec s h another b r hI hbd hne hr ha
            rw [h1] at he
            cases he
            exact ⟨hp.inv, by simp [handles_after, hne, ha, hp.handles], ⟨[], by simp [hp.ptrs]⟩,
              by rw [hvl _ _ hp.values]; simp⟩
  | dtor h =>
    simp only [exec] at he
    cases hr : block_ref s h with
    | none => simp [dtor, release, hr] at he
    | some r =>
      obtain ⟨s2, h1, hp⟩ := dtor_spec s h r hI hbd hr
      rw [h1] at he
      cases he
      exact ⟨hp.inv, by simp [handles_after, hp.handles], ⟨[], by simp [hp.ptrs]⟩,
        by rw [hvl _ _ hp.values]; simp⟩
  | reset h ptr mem =>
    simp only [exec] at he
    cases hr : block_ref s h with
    | none => simp [reset, release, hr] at he
    | some r =>
      cases ptr with
      | none => simp [Op.fresh, fresh] at hf
      | some a =>
        cases mem with
        | false =>
          obtain ⟨s2, h1, _, _⟩ := release_handle_spec s h r hI hbd hr
          simp [reset, h1, acquire] at he
        | true =>
          obtain ⟨s2, h1, hp⟩ := reset_spec s h a r hI hbd hr hf
          rw [h1] at he
          cases he
          exact ⟨hp.inv, by simp [handles_after, hp.handles], ⟨[some a], hp.ptrs⟩,
            by rw [hvl _ _ hp.values]; simp⟩
  | alloc v =>
    simp only [exec] at he
    cases he
    exact ⟨(alloc_spec s v hI).inv, rfl, ⟨[], by simp [new_obj]⟩, by simp [new_obj]⟩
  | store h w =>
    simp only [exec] at he
    cases hr : block_ref s h with
    | none => simp [store, hr] at he
    | some r =>
      cases r with
      | none => simp [store, hr] at he
      | some b =>
        obtain ⟨s2, a, h1, _, hp⟩ := store_spec s h b w hI hr
        rw [h1] at he
        cases he
        exact ⟨hp.inv, by simp [handles_after, hp.handles], ⟨[], by simp [hp.ptrs]⟩,
          by rw [hvl _ _ hp.values]; simp⟩

theorem inv_empty : Inv State.empty := by
  refine ⟨?_, ?_, ?_, ?_, ?_, ?_⟩
  · intro b cb h
    simp [State.empty] at h
  · intro b cb h
    simp [State.empty] at h
  · intro b cb h
    simp [State.empty] at h
  · simp [State.empty]
  · intro a o h
    simp [State.empty] at h
  · intro b h
    simp [State.empty, refs] at h

theorem run_post (ops : List Op) (s s1 : State) (hI : Inv s) (hf : fresh_run s ops = true)
    (he : run s ops = .ok s1) (hbd : (s1.handles.length : Int) < LONG_MAX) :
    Inv s1 ∧
      (∃ ps, s1.blocks.map ControlBlock.m_ptr = s.blocks.map ControlBlock.m_ptr ++ ps) ∧
      s.objects.length ≤ s1.objects.length := by
  induction ops generalizing s with
  | nil =>
    simp only [run] at he
    cases he
    exact ⟨hI, ⟨[], by simp⟩, Nat.le_refl _⟩
  | cons op rest ih =>
    simp only [run] at he
    simp only [fresh_run, Bool.and_eq_true] at hf
    cases h1 : exec s op with
    | fail f s2 => simp [h1] at he
    | ok s2 =>
      simp only [h1] at he hf
      have hlen := run_len _ _ _ he
      have hlen2 := exec_len _ _ _ h1
      obtain ⟨hI2, _, ⟨ps, hps⟩, hol⟩ := exec_post s s2 op hI (by omega) hf.1 h1
      obtain ⟨hI3, ⟨ps2, hps2⟩, hol2⟩ := ih s2 hI2 hf.2 he
      exact ⟨hI3, ⟨ps ++ ps2, by rw [hps2, hps, List.append_assoc]⟩, Nat.le_trans hol hol2⟩

theorem run_inv (ops : List Op) (s s1 : State) (hI : Inv s) (hf : fresh_run s ops = true)
    (he : run s ops = .ok s1) (hbd : (s1.handles.length : Int) < LONG_MAX) : Inv s1 :=
  (run_post ops s s1 hI hf he hbd).1

theorem inv_block (s : State) (b : Nat) (hI : Inv s) (hlt : b < s.blocks.length) :
    ∃ cb a o, s.blocks[b]? = some cb ∧ cb.m_counter = (refs s b : Int) ∧
      cb.freed = (if refs s b = 0 then 1 else 0) ∧ cb.m_ptr = some a ∧
      s.objects[a]? = some o ∧ o.deleted = cb.freed := by
  obtain ⟨cb, hcb⟩ := lookup_of_lt s.blocks b hlt
  obtain ⟨a, o, hp, ho, hd⟩ := hI.managed b cb hcb
  exact ⟨cb, a, o, hcb, hI.counter b cb hcb, hI.freed b cb hcb, hp, ho, hd⟩

/-- C3. Count invariant: in every state reached from the empty state by
statements that complete and hand over only fresh pointers, every control
block's counter is the number of live handles referencing it, and every live
non-absent handle references a block that is not freed, whose counter is at
least 1 and whose object is not deleted. -/
theorem count_invariant_reachable (ops : List Op) (s : State)
    (hf : fresh_run State.empty ops = true) (he : run State.empty ops = .ok s)
    (hbd : (s.handles.length : Int) < LONG_MAX) :
    (∀ (b : Nat) (cb : ControlBlock), s.blocks[b]? = some cb →
      cb.m_counter = (refs s b : Int)) ∧
    (∀ (h b : Nat), block_ref s h = some (some b) →
      ∃ cb a o, s.blocks[b]? = some cb ∧ cb.freed = 0 ∧ 1 ≤ cb.m_counter ∧
        cb.m_ptr = some a ∧ s.objects[a]? = some o ∧ o.deleted = 0) := by
  have hI := run_inv ops State.empty s inv_empty hf he hbd
  refine ⟨hI.counter, ?_⟩
  intro h b hr
  have hpos := refs_pos s h b hr
  obtain ⟨cb, a, o, hcb, hc, hfr, hp, ho, hd⟩ := inv_block s b hI (hI.valid b hpos)
  have hne : refs s b ≠ 0 := by omega
  simp only [hne, if_false] at hfr
  refine ⟨cb, a, o, hcb, hfr, ?_, hp, ho, ?_⟩
  · rw [hc]
    omega
  · rw [hd, hfr]

/-- C7. Self-assignment safety: for every live handle `h`, absent or not,
`h = h` completes and leaves the whole state unchanged. -/
theorem self_assign_noop (s : State) (h : Nat) (r : Option Nat)
    (hr : block_ref s h = some r) : assign s h h = .ok s := by
  simp [assign, hr]

theorem self_assign_noop_witness :
    block_ref ⟨[⟨1, 0⟩], [⟨some 0, 2, 0⟩], [some ⟨some 0⟩, some ⟨some 0⟩]⟩ 1
        = some (some 0) ∧
      assign ⟨[⟨1, 0⟩], [⟨some 0, 2, 0⟩], [some ⟨some 0⟩, some ⟨some 0⟩]⟩ 1 1 =
        .ok ⟨[⟨1, 0⟩], [⟨some 0, 2, 0⟩], [some ⟨some 0⟩, some ⟨some 0⟩]⟩ :=
  ⟨by decide, self_assign_noop _ 1 (some 0) (by decide)⟩

theorem copy_ctor_eq (s : State) (other b : Nat) (cb : ControlBlock)
    (hr : block_ref s other = some (some b)) (hcb : s.blocks[b]? = some cb) :
    copy_ctor s other = .ok
      { objects := s.objects,
        blocks := s.blocks.set b { cb with m_counter := wrapLong (cb.m_counter + 1) },
        handles := s.handles ++ [some ⟨some b⟩] } := by
  have ha0 := (block_ref_iff s other _).1 hr
  have hlt := lookup_lt _ _ _ ha0
  have hnew : block_ref (new_handle s) s.handles.length = some none := by
    rw [block_ref_iff]
    simp [new_handle]
  have hother : block_ref (new_handle s) other = some (some b) := by
    rw [block_ref_iff]
    simp only [new_handle]
    rw [List.getElem?_append_left hlt]
    exact ha0
  simp [copy_ctor, hr, copy_from, hother, set_block_ref, hnew, ControlBlock.inc]
  simp [new_handle, hcb]

/-- C4. Copy assignment from an absent handle does not complete: after
`SharedPtr a{new T{1}}; SharedPtr b; a = b;` the assignment has released the
block of `a` (object deleted, block freed), has set `a.m_control_block` to
nullptr and then calls `inc` through that null pointer, whereas the copy
constructor, which tests for nullptr first, completes on the same source. -/
theorem assign_from_absent_fails :
    run State.empty [.alloc 1, .ptr_ctor (some 0) true, .default_ctor, .assign 0 1] =
        .fail .null_deref ⟨[⟨1, 1⟩], [⟨some 0, 0, 1⟩], [some ⟨none⟩, some ⟨none⟩]⟩ ∧
      run State.empty [.default_ctor, .default_ctor, .assign 0 1] =
        .fail .null_deref ⟨[], [], [some ⟨none⟩, some ⟨none⟩]⟩ ∧
      run State.empty [.alloc 1, .ptr_ctor (some 0) true, .default_ctor, .copy_ctor 1] =
        .ok ⟨[⟨1, 0⟩], [⟨some 0, 1, 0⟩], [some ⟨some 0⟩, some ⟨none⟩, some ⟨none⟩]⟩ := by
  decide

/-- C6, counterexample. A sole owner calls `reset` and the allocation of the
new control block fails: the failure is reported, but the state is not the one
before the call, the prior object has been deleted, the prior block has been
freed and its counter is 0 although the handle still holds it. -/
theorem reset_alloc_failure_not_atomic :
    reset ⟨[⟨1, 0⟩, ⟨2, 0⟩], [⟨some 0, 1, 0⟩], [some ⟨some 0⟩]⟩ 0 (some 1) false =
        .fail .bad_alloc ⟨[⟨1, 1⟩, ⟨2, 0⟩], [⟨some 0, 0, 1⟩], [some ⟨some 0⟩]⟩ ∧
      run State.empty [.alloc 1, .ptr_ctor (some 0) true, .alloc 2] =
        .ok ⟨[⟨1, 0⟩, ⟨2, 0⟩], [⟨some 0, 1, 0⟩], [some ⟨some 0⟩]⟩ ∧
      (⟨[⟨1, 1⟩, ⟨2, 0⟩], [⟨some 0, 0, 1⟩], [some ⟨some 0⟩]⟩ : State) ≠
        ⟨[⟨1, 0⟩, ⟨2, 0⟩], [⟨some 0, 1, 0⟩], [some ⟨some 0⟩]⟩ := by
  decide

/-- C6, amended. When the allocation of the control block fails, construction
from a raw pointer reports the failure and leaves the state as before the call;
`reset` reports the failure with the state that its `release` step produced:
no block has been added, the counter of the block the handle held has been
lowered by exactly one, and that block has been freed and its object deleted
exactly when the handle was its last owner. -/
theorem alloc_failure_after_release (s : State) (h a : Nat) (r : Option Nat) (hI : Inv s)
    (hbd : (s.handles.length : Int) < LONG_MAX) (hr : block_ref s h = some r) :
    ptr_ctor s (some a) false = .fail .bad_alloc s ∧
    ∃ s1, release s h = .ok s1 ∧ reset s h (some a) false = .fail .bad_alloc s1 ∧
      s1.blocks.length = s.blocks.length ∧
      (r = none → s1 = s) ∧
      ∀ b : Nat, r = some b →
        ∃ cb cb1 x o1, s.blocks[b]? = some cb ∧ s1.blocks[b]? = some cb1 ∧
          cb1.m_counter = cb.m_counter - 1 ∧ cb1.m_ptr = some x ∧
          s1.objects[x]? = some o1 ∧
          cb1.freed = (if cb.m_counter = 1 then 1 else 0) ∧
          o1.deleted = (if cb.m_counter = 1 then 1 else 0) := by
  constructor
  · simp [ptr_ctor, acquire]
  · obtain ⟨s1, h1, hsh, hok⟩ := release_handle_spec s h r hI hbd hr
    have hlen : s1.blocks.length = s.blocks.length := by
      have := congrArg List.length hsh.ptrs
      simpa using this
    refine ⟨s1, h1, by simp [reset, h1, acquire], hlen, ?_, ?_⟩
    · intro hn
      subst hn
      have := release_absent s h hr
      rw [h1] at this
      cases this
      rfl
    · intro b hb
      subst hb
      have hpos := refs_pos s h b hr
      have hlt := hI.valid b hpos
      obtain ⟨cb, hcb⟩ := lookup_of_lt s.blocks b hlt
      obtain ⟨cb1, hcb1⟩ := lookup_of_lt s1.blocks b (by omega)
      obtain ⟨x, o1, hp1, ho1, hd1⟩ := hok.managed b cb1 hcb1
      have hc := hI.counter b cb hcb
      have hc1 := hok.counter b cb1 hcb1
      have hf1 := hok.freed b cb1 hcb1
      simp only [if_true] at hc1 hf1
      have hiff : (refs s b - 1 = 0) ↔ cb.m_counter = 1 := by
        rw [hc]
        omega
      refine ⟨cb, cb1, x, o1, hcb, hcb1, ?_, hp1, ho1, ?_, ?_⟩
      · rw [hc1, hc]
        omega
      · rw [hf1]
        simp only [hiff]
      · rw [hd1, hf1]
        simp only [hiff]

theorem load_eq (s : State) (h : Nat) :
    load s h = load_of s.handles (s.blocks.map ControlBlock.m_ptr)
      (s.objects.map Obj.value) h := by
  unfold load deref block_ref ControlBlock.deref load_of
  cases h1 : s.handles[h]? with
  | none => simp
  | some x =>
    cases x with
    | none => simp
    | some sp =>
      cases sp with
      | mk m =>
        cases m with
        | none => simp
        | some b =>
          cases h2 : s.blocks[b]? with
          | none => simp [h2]
          | some cb =>
            cases h3 : cb.m_ptr with
            | none => simp [h2, h3]
            | some a => simp [h2, h3]

theorem ptr_lookup (s : State) (b : Nat) (cb : ControlBlock) (hcb : s.blocks[b]? = some cb) :
    (s.blocks.map ControlBlock.m_ptr)[b]? = some cb.m_ptr := by
  simp [hcb]

theorem ptr_stable (s s1 : State) (ps : List (Option Nat)) (b : Nat) (cb cb1 : ControlBlock)
    (hps : s1.blocks.map ControlBlock.m_ptr = s.blocks.map ControlBlock.m_ptr ++ ps)
    (hcb : s.blocks[b]? = some cb) (hcb1 : s1.blocks[b]? = some cb1) :
    cb1.m_ptr = cb.m_ptr := by
  have h1 := ptr_lookup s1 b cb1 hcb1
  rw [hps, List.getElem?_append_left (by simpa using lookup_lt _ _ _ hcb),
    ptr_lookup s b cb hcb] at h1
  exact (Option.some.inj h1).symm

theorem blocks_len_of_ptrs (s s1 : State) (ps : List (Option Nat))
    (hps : s1.blocks.map ControlBlock.m_ptr = s.blocks.map ControlBlock.m_ptr ++ ps) :
    s1.blocks.length = s.blocks.length + ps.length := by
  have := congrArg List.length hps
  simpa using this

theorem live_block (s : State) (h b : Nat) (hI : Inv s)
    (hr : block_ref s h = some (some b)) :
    ∃ cb a o, s.blocks[b]? = some cb ∧ cb.m_counter = (refs s b : Int) ∧
      cb.freed = 0 ∧ cb.m_ptr = some a ∧ s.objects[a]? = some o ∧ o.deleted = 0 := by
  have hpos := refs_pos s h b hr
  obtain ⟨cb, a, o, hcb, hc, hfr, hp, ho, hd⟩ := inv_block s b hI (hI.valid b hpos)
  have hne : refs s b ≠ 0 := by omega
  simp only [hne, if_false] at hfr
  exact ⟨cb, a, o, hcb, hc, hfr, hp, ho, by rw [hd, hfr]⟩

/-- C5. Reset independence: when handles `A` and `B` share block `X` and `a`
is a fresh pointer, `B.reset(a)` completes; `A` still references `X` and reads
the same value; the counter of `X` is lowered by exactly one, `X` is not freed
and its object is not deleted; `B` references a new block that manages `a`
with counter 1 and no other owner, and `*B` reads the value of `a`.  In every
later state in which `A` still references `X`, the object of `X` is still not
deleted. -/
theorem reset_independence (s : State) (A B X a : Nat) (hI : Inv s)
    (hbd : (s.handles.length : Int) < LONG_MAX) (hne : A ≠ B)
    (hA : block_ref s A = some (some X)) (hB : block_ref s B = some (some X))
    (hf : fresh s (some a) = true) :
    ∃ s1, reset s B (some a) true = .ok s1 ∧
      block_ref s1 A = some (some X) ∧ load s1 A = load s A ∧
      (∃ cb cb1 x o1, s.blocks[X]? = some cb ∧ s1.blocks[X]? = some cb1 ∧
        cb1.m_counter = cb.m_counter - 1 ∧ cb1.freed = 0 ∧ cb.m_ptr = some x ∧
        cb1.m_ptr = some x ∧ s1.objects[x]? = some o1 ∧ o1.deleted = 0 ∧
        ∀ (ops : List Op) (s2 : State), fresh_run s1 ops = true → run s1 ops = .ok s2 →
          (s2.handles.length : Int) < LONG_MAX → block_ref s2 A = some (some X) →
          ∃ cb2 o2, s2.blocks[X]? = some cb2 ∧ cb2.m_ptr = some x ∧ cb2.freed = 0 ∧
            s2.objects[x]? = some o2 ∧ o2.deleted = 0) ∧
      block_ref s1 B = some (some s.blocks.length) ∧ s.blocks.length ≠ X ∧
      s1.blocks[s.blocks.length]? = some ⟨some a, 1, 0⟩ ∧
      refs s1 s.blocks.length = 1 ∧
      load s1 B = (s.objects[a]?).map Obj.value := by
  obtain ⟨s1, h1, hp⟩ := reset_spec s B a (some X) hI hbd hB hf
  have hA0 := (block_ref_iff s A _).1 hA
  have hB0 := (block_ref_iff s B _).1 hB
  have hXlt : X < s.blocks.length := hI.valid X (refs_pos s A X hA)
  have hXne : s.blocks.length ≠ X := by omega
  have hA1 : block_ref s1 A = some (some X) := by
    rw [block_ref_iff, hp.handles, List.getElem?_set_ne (Ne.symm hne)]
    exact hA0
  have hB1 : block_ref s1 B = some (some s.blocks.length) := by
    rw [block_ref_iff, hp.handles]
    simp [List.getElem?_set, lookup_lt _ _ _ hB0]
  have hrefX : refs s1 X = refs s X - 1 := by
    rw [refs_of_set s s1 B (some ⟨some s.blocks.length⟩) (some X) hp.handles hB X]
    simp [hXne]
  have hrefN : refs s1 s.blocks.length = 1 := by
    rw [refs_of_set s s1 B (some ⟨some s.blocks.length⟩) (some X) hp.handles hB
      s.blocks.length]
    simp [no_owner_at_end s _ hI]
  have htwo := refs_two s A B X hne hA hB
  obtain ⟨cb, x, o, hcb, hc, _, hpx, _, _⟩ := live_block s A X hI hA
  obtain ⟨cb1, x1, o1, hcb1, hc1, hfr1, hpx1, ho1, hd1⟩ := live_block s1 A X hp.inv hA1
  have hpt : cb1.m_ptr = cb.m_ptr := ptr_stable s s1 [some a] X cb cb1 hp.ptrs hcb hcb1
  rw [hpx1, hpx] at hpt
  cases hpt
  obtain ⟨cbn, xn, _, hcbn, hcn, hfrn, hpn, _, _⟩ := live_block s1 B _ hp.inv hB1
  have hpn2 := ptr_lookup s1 _ cbn hcbn
  rw [hp.ptrs, hpn] at hpn2
  simp at hpn2
  subst hpn2
  refine ⟨s1, h1, hA1, ?_, ?_, hB1, hXne, ?_, hrefN, ?_⟩
  · rw [load_eq, load_eq, hp.handles, hp.ptrs, hp.values]
    unfold load_of
    rw [List.getElem?_set_ne (Ne.symm hne), hA0]
    simp only
    rw [List.getElem?_append_left (by simpa using hXlt)]
  · refine ⟨cb, cb1, x, o1, hcb, hcb1, ?_, hfr1, hpx, hpx1, ho1, hd1, ?_⟩
    · rw [hc1, hc, hrefX]
      omega
    · intro ops s2 hfr hrun hbd2 hA2
      obtain ⟨hI2, ⟨ps, hps⟩, _⟩ := run_post ops s1 s2 hp.inv hfr hrun hbd2
      obtain ⟨cb2, x2, o2, hcb2, _, hfr2, hpx2, ho2, hd2⟩ := live_block s2 A X hI2 hA2
      have hpt2 := ptr_stable s1 s2 ps X cb1 cb2 hps hcb1 hcb2
      rw [hpx2, hpx1] at hpt2
      cases hpt2
      exact ⟨cb2, o2, hcb2, hpx2, hfr2, ho2, hd2⟩
  · rw [hcbn]
    cases cbn with
    | mk p c f =>
      simp only at hcn hfrn hpn
      rw [hrefN] at hcn
      simp [hcn, hfrn, hpn]
  · rw [load_eq, hp.handles, hp.ptrs, hp.values]
    unfold load_of
    simp [List.getElem?_set, lookup_lt _ _ _ hB0]

theorem run_cons_ok (s t : State) (op : Op) (ops : List Op)
    (he : run s (op :: ops) = .ok t) :
    ∃ s1, exec s op = .ok s1 ∧ run s1 ops = .ok t := by
  simp only [run] at he
  cases h1 : exec s op with
  | fail f s2 => simp [h1] at he
  | ok s2 =>
    simp only [h1] at he
    exact ⟨s2, rfl, he⟩

theorem fresh_run_cons (s s1 : State) (op : Op) (ops : List Op)
    (hf : fresh_run s (op :: ops) = true) (h1 : exec s op = .ok s1) :
    op.fresh s = true ∧ fresh_run s1 ops = true := by
  simp only [fresh_run, Bool.and_eq_true, h1] at hf
  exact hf

/-- C8. Dereference gives shared access to the one managed object.  A handle
`h` is constructed from a fresh pointer `a` to an object holding `o.value`:
`*h` reads that value.  In any later state `t` in which `h` still references
its block, `*h` designates the object `a` itself; `*h = w` completes and makes
that object hold `w`; every handle that shares the block of `h` reads `w`,
every handle that references another block reads what it read before, and a
copy of `h` made after the write reads `w` too. -/
theorem deref_shared_access (s t : State) (a : Nat) (o : Obj) (w : Int) (ops : List Op)
    (hI : Inv s) (hf : fresh_run s (.ptr_ctor (some a) true :: ops) = true)
    (ho : s.objects[a]? = some o)
    (hrun : run s (.ptr_ctor (some a) true :: ops) = .ok t)
    (hbd : (t.handles.length : Int) + 1 < LONG_MAX)
    (hh : block_ref t s.handles.length = some (some s.blocks.length)) :
    (∃ s1, ptr_ctor s (some a) true = .ok s1 ∧ load s1 s.handles.length = some o.value) ∧
    deref t s.handles.length = some a ∧
    ∃ t1, store t s.handles.length w = .ok t1 ∧
      (t1.objects[a]?).map Obj.value = some w ∧
      (∀ h2 : Nat, block_ref t h2 = some (some s.blocks.length) → load t1 h2 = some w) ∧
      (∀ h2 b2 : Nat, b2 ≠ s.blocks.length → block_ref t h2 = some (some b2) →
        load t1 h2 = load t h2) ∧
      ∃ t2, copy_ctor t1 s.handles.length = .ok t2 ∧ load t2 t.handles.length = some w := by
  obtain ⟨s1, h1, hrun1⟩ := run_cons_ok s t _ ops hrun
  obtain ⟨hfa, hf1⟩ := fresh_run_cons s s1 _ ops hf h1
  simp only [exec] at h1
  obtain ⟨s1b, h1b, hp⟩ := ptr_ctor_spec s a hI hfa
  rw [h1] at h1b
  cases h1b
  have halt := lookup_lt _ _ _ ho
  obtain ⟨hIt, ⟨ps, hps⟩, hol⟩ := run_post ops s1 t hp.inv hf1 hrun1 (by omega)
  have hptB : (t.blocks.map ControlBlock.m_ptr)[s.blocks.length]? = some (some a) := by
    rw [hps, hp.ptrs, List.append_assoc, List.getElem?_append_right (by simp)]
    simp
  obtain ⟨cb, x, ox, hcb, _, _, hpx, hox, _⟩ := live_block t _ _ hIt hh
  have hxa : x = a := by
    have := ptr_lookup t _ cb hcb
    rw [hptB, hpx] at this
    simpa using this.symm
  subst hxa
  have hxlt := lookup_lt _ _ _ hox
  obtain ⟨t1, a2, hst, hd, hpt⟩ := store_spec t s.handles.length s.blocks.length w hIt hh
  have hd2 : deref t s.handles.length = some x := by
    simp [deref, hh, ControlBlock.deref, hcb, hpx]
  rw [hd2] at hd
  cases hd
  have hvlen : (t.objects.map Obj.value).length = t.objects.length := by simp
  refine ⟨⟨s1, h1, ?_⟩, hd2, t1, hst, ?_, ?_, ?_, ?_⟩
  · rw [load_eq, hp.handles, hp.ptrs, hp.values]
    unfold load_of
    simp [ho]
  · have := congrArg (fun l => l[x]?) hpt.values
    simp only [List.getElem?_map] at this
    rw [this]
    simp [List.getElem?_set, hxlt]
  · intro h2 hr2
    rw [load_eq, hpt.handles, hpt.ptrs, hpt.values]
    unfold load_of
    rw [(block_ref_iff t h2 _).1 hr2]
    simp only
    rw [hptB]
    simp [List.getElem?_set, hxlt]
  · intro h2 b2 hb2 hr2
    obtain ⟨cb2, x2, _, hcb2, _, _, hpx2, _, _⟩ := live_block t h2 b2 hIt hr2
    have hne : x ≠ x2 := by
      intro he
      apply hb2
      exact ptr_inj t hIt.inj b2 _ cb2 cb hcb2 hcb (by rw [hpx2, hpx, he])
    rw [load_eq, load_eq, hpt.handles, hpt.ptrs, hpt.values]
    unfold load_of
    rw [(block_ref_iff t h2 _).1 hr2]
    simp only
    rw [ptr_lookup t b2 cb2 hcb2, hpx2]
    simp only
    rw [List.getElem?_set_ne hne]
  · have hh1 : block_ref t1 s.handles.length = some (some s.blocks.length) := by
      rw [block_ref_handles _ _ hpt.handles]
      exact hh
    obtain ⟨t2, hc, hpc⟩ := copy_ctor_spec t1 s.handles.length s.blocks.length hpt.inv
      (by rw [hpt.handles]; omega) hh1
    refine ⟨t2, hc, ?_⟩
    rw [load_eq, hpc.handles, hpc.ptrs, hpc.values, hpt.handles, hpt.ptrs, hpt.values]
    unfold load_of
    simp only [List.getElem?_concat_length]
    rw [hptB]
    simp [List.getElem?_set, hxlt]

theorem refs_set_other (s s1 : State) (i b : Nat) (x : Option SharedPtr)
    (hh : s1.handles = s.handles.set i x)
    (hold : s.handles[i]? ≠ some (some ⟨some b⟩)) (hnew : x ≠ some ⟨some b⟩) :
    refs s1 b = refs s b := by
  unfold refs
  rw [hh]
  by_cases hi : i < s.handles.length
  · rw [List.count_set _ _ _ _ hi]
    have h1 : s.handles[i] ≠ some ⟨some b⟩ := by
      intro he
      apply hold
      rw [List.getElem?_eq_getElem hi, he]
    simp [h1, hnew]
  · rw [List.set_eq_of_length_le (by omega)]

theorem sole_owner_others (s : State) (h b : Nat) (hr : block_ref s h = some (some b))
    (h1 : refs s b = 1) (h2 : Nat) (hne : h2 ≠ h) :
    s.handles[h2]? ≠ some (some ⟨some b⟩) := by
  intro hc
  have := refs_two s h2 h b hne ((block_ref_iff s h2 _).2 hc) hr
  omega

theorem frame_push (s s1 : State) (h b : Nat) (x : Option SharedPtr)
    (hh : s1.handles = s.handles ++ [x]) (hx : x ≠ some ⟨some b⟩)
    (hr : block_ref s h = some (some b)) (h1 : refs s b = 1) :
    block_ref s1 h = some (some b) ∧ refs s1 b = 1 := by
  have hr0 := (block_ref_iff s h _).1 hr
  constructor
  · rw [block_ref_iff, hh, List.getElem?_append_left (lookup_lt _ _ _ hr0)]
    exact hr0
  · rw [refs_of_push s s1 x hh b, h1]
    simp [hx]

theorem frame_set (s s1 : State) (h b i : Nat) (x : Option SharedPtr)
    (hh : s1.handles = s.handles.set i x) (hi : i ≠ h) (hx : x ≠ some ⟨some b⟩)
    (hr : block_ref s h = some (some b)) (h1 : refs s b = 1) :
    block_ref s1 h = some (some b) ∧ refs s1 b = 1 := by
  have hr0 := (block_ref_iff s h _).1 hr
  constructor
  · rw [block_ref_iff, hh, List.getElem?_set_ne hi]
    exact hr0
  · rw [refs_set_other s s1 i b x hh (sole_owner_others s h b hr h1 i hi) hx]
    exact h1

theorem sole_owner_frame (s s1 : State) (op : Op) (h b : Nat) (hI : Inv s)
    (hbd : (s.handles.length : Int) < LONG_MAX) (hf : op.fresh s = true)
    (he : exec s op = .ok s1) (hnt : op.touches h = false)
    (hr : block_ref s h = some (some b)) (h1 : refs s b = 1) :
    block_ref s1 h = some (some b) ∧ refs s1 b = 1 := by
  obtain ⟨_, hh, _, _⟩ := exec_post s s1 op hI hbd hf he
  have hblt : b < s.blocks.length := hI.valid b (by omega)
  have hsrc : ∀ another : Nat, another ≠ h →
      (some ⟨(block_ref s another).getD none⟩ : Option SharedPtr) ≠ some ⟨some b⟩ := by
    intro another hne hc
    cases hb : block_ref s another with
    | none => simp [hb] at hc
    | some r =>
      simp [hb] at hc
      subst hc
      exact sole_owner_others s h b hr h1 another hne ((block_ref_iff s another _).1 hb)
  have hnew : (some ⟨some s.blocks.length⟩ : Option SharedPtr) ≠ some ⟨some b⟩ := by
    intro hc
    simp at hc
    omega
  cases op with
  | default_ctor => exact frame_push s s1 h b _ hh (by simp) hr h1
  | copy_ctor another =>
    simp [Op.touches] at hnt
    exact frame_push s s1 h b _ hh (hsrc another hnt) hr h1
  | ptr_ctor ptr mem => exact frame_push s s1 h b _ hh hnew hr h1
  | assign x another =>
    simp [Op.touches] at hnt
    simp only [handles_after] at hh
    by_cases hxa : x = another
    · simp only [hxa, if_true] at hh
      exact ⟨by rw [block_ref_handles _ _ hh]; exact hr, by rw [refs_handles _ _ hh]; exact h1⟩
    · simp only [hxa, if_false] at hh
      exact frame_set s s1 h b x _ hh hnt.1 (hsrc another hnt.2) hr h1
  | dtor x =>
    simp [Op.touches] at hnt
    exact frame_set s s1 h b x _ hh hnt (by simp) hr h1
  | reset x ptr mem =>
    simp [Op.touches] at hnt
    exact frame_set s s1 h b x _ hh hnt hnew hr h1
  | alloc v =>
    exact ⟨by rw [block_ref_handles _ _ hh]; exact hr, by rw [refs_handles _ _ hh]; exact h1⟩
  | store x v =>
    exact ⟨by rw [block_ref_handles _ _ hh]; exact hr, by rw [refs_handles _ _ hh]; exact h1⟩

theorem sole_owner_run (ops : List Op) (s t : State) (h b : Nat) (hI : Inv s)
    (hf : fresh_run s ops = true) (he : run s ops = .ok t)
    (hbd : (t.handles.length : Int) < LONG_MAX)
    (hnt : ∀ op ∈ ops, Op.touches h op = false)
    (hr : block_ref s h = some (some b)) (h1 : refs s b = 1) :
    block_ref t h = some (some b) ∧ refs t b = 1 := by
  induction ops generalizing s with
  | nil =>
    simp only [run] at he
    cases he
    exact ⟨hr, h1⟩
  | cons op rest ih =>
    obtain ⟨s1, he1, herest⟩ := run_cons_ok s t op rest he
    obtain ⟨hfo, hfrest⟩ := fresh_run_cons s s1 op rest hf he1
    have hlen := run_len _ _ _ herest
    have hlen2 := exec_len _ _ _ he1
    have hbd1 : (s.handles.length : Int) < LONG_MAX := by omega
    obtain ⟨hr1, h11⟩ := sole_owner_frame s s1 op h b hI hbd1 hfo he1
      (hnt op (List.mem_cons_self _ _)) hr h1
    exact ih s1 (exec_post s s1 op hI hbd1 hfo he1).1 hfrest herest
      (fun op2 hm => hnt op2 (List.mem_cons_of_mem _ hm)) hr1 h11

/-- C9. Single ownership lifetime: a handle is constructed from a fresh
pointer `a` and no later statement copies from it, assigns to it, resets it or
destroys it.  Then in every state reached, its block is not freed, has counter
1 and its object `a` is not deleted; and destroying the handle in that state
completes and leaves the object deleted exactly once and the block freed
exactly once. -/
theorem single_owner_lifetime (s t : State) (a : Nat) (ops : List Op) (hI : Inv s)
    (hf : fresh_run s (.ptr_ctor (some a) true :: ops) = true)
    (hrun : run s (.ptr_ctor (some a) true :: ops) = .ok t)
    (hnt : ∀ op ∈ ops, Op.touches s.handles.length op = false)
    (hbd : (t.handles.length : Int) < LONG_MAX) :
    (∃ cb o, t.blocks[s.blocks.length]? = some cb ∧ cb.m_ptr = some a ∧
      cb.m_counter = 1 ∧ cb.freed = 0 ∧ t.objects[a]? = some o ∧ o.deleted = 0) ∧
    ∃ t1 cb1 o1, dtor t s.handles.length = .ok t1 ∧
      t1.blocks[s.blocks.length]? = some cb1 ∧ cb1.m_ptr = some a ∧
      cb1.m_counter = 0 ∧ cb1.freed = 1 ∧ t1.objects[a]? = some o1 ∧ o1.deleted = 1 := by
  obtain ⟨s1, h1, hrun1⟩ := run_cons_ok s t _ ops hrun
  obtain ⟨hfa, hf1⟩ := fresh_run_cons s s1 _ ops hf h1
  simp only [exec] at h1
  obtain ⟨s1b, h1b, hp⟩ := ptr_ctor_spec s a hI hfa
  rw [h1] at h1b
  cases h1b
  have hr1 : block_ref s1 s.handles.length = some (some s.blocks.length) := by
    rw [block_ref_iff, hp.handles]
    simp
  have hrefs1 : refs s1 s.blocks.length = 1 := by
    rw [refs_of_push s s1 _ hp.handles]
    simp [no_owner_at_end s _ hI]
  obtain ⟨hrt, hrefst⟩ := sole_owner_run ops s1 t _ _ hp.inv hf1 hrun1 hbd hnt hr1 hrefs1
  obtain ⟨hIt, ⟨ps, hps⟩, _⟩ := run_post ops s1 t hp.inv hf1 hrun1 hbd
  have hptB : (t.blocks.map ControlBlock.m_ptr)[s.blocks.length]? = some (some a) := by
    rw [hps, hp.ptrs, List.append_assoc, List.getElem?_append_right (by simp)]
    simp
  obtain ⟨cb, x, ox, hcb, hc, hfr, hpx, hox, hd⟩ := live_block t _ _ hIt hrt
  have hxa : x = a := by
    have := ptr_lookup t _ cb hcb
    rw [hptB, hpx] at this
    simpa using this.symm
  subst hxa
  refine ⟨⟨cb, ox, hcb, hpx, by rw [hc, hrefst]; rfl, hfr, hox, hd⟩, ?_⟩
  obtain ⟨t1, hdt, hpd⟩ := dtor_spec t s.handles.length _ hIt hbd hrt
  have hrefs2 : refs t1 s.blocks.length = 0 := by
    rw [refs_of_set t t1 _ none _ hpd.handles hrt, hrefst]
    simp
  have hlt1 : s.blocks.length < t1.blocks.length := by
    have h2 := congrArg List.length hpd.ptrs
    simp only [List.length_map] at h2
    rw [h2]
    exact lookup_lt _ _ _ hcb
  obtain ⟨cb1, x1, o1, hcb1, hc1, hfr1, hpx1, ho1, hd1⟩ := inv_block t1 _ hpd.inv hlt1
  have hx1 : x1 = x := by
    have := ptr_lookup t1 _ cb1 hcb1
    rw [hpd.ptrs, hptB, hpx1] at this
    simpa using this.symm
  subst hx1
  simp only [hrefs2, if_true] at hfr1
  exact ⟨t1, cb1, o1, hdt, hcb1, hpx1, by rw [hc1, hrefs2]; rfl, hfr1, ho1,
    by rw [hd1, hfr1]⟩

theorem fresh_new_obj (s : State) (w : Int) (hI : Inv s) :
    fresh (new_obj s w) (some s.objects.length) = true := by
  rw [fresh_iff]
  refine ⟨⟨w, 0⟩, by simp [new_obj], rfl, ?_⟩
  intro hm
  obtain ⟨cb, hmem, hp⟩ := List.mem_map.1 hm
  obtain ⟨b, hb⟩ := List.mem_iff_getElem?.1 hmem
  have hb2 : s.blocks[b]? = some cb := hb
  obtain ⟨a2, o2, hp2, ho2, _⟩ := hI.managed b cb hb2
  rw [hp] at hp2
  cases hp2
  have := lookup_lt _ _ _ ho2
  omega

theorem family_blocks_lt (base N B a : Nat) (done : List Nat) (t : State)
    (hF : Family base N B a done t) : B < t.blocks.length := by
  have := lookup_lt _ _ _ hF.ptr
  simpa using this

theorem build_copies (base B a : Nat) (srcs : List Nat) (k : Nat) (s1 : State)
    (hF : Family base k B a [] s1)
    (hsrc : ∀ i j : Nat, srcs[i]? = some j → base ≤ j ∧ j ≤ base + k + i)
    (hbd : (base : Int) + k + srcs.length + 1 < LONG_MAX) :
    ∃ s2, run s1 (srcs.map Op.copy_ctor) = .ok s2 ∧
      Family base (k + srcs.length) B a [] s2 := by
  induction srcs generalizing k s1 with
  | nil => exact ⟨s1, rfl, by simpa using hF⟩
  | cons j rest ih =>
    obtain ⟨hj1, hj2⟩ := hsrc 0 j (by simp)
    have hrj : block_ref s1 j = some (some B) := (hF.members j).2 ⟨hj1, by omega, by simp⟩
    have hlen := hF.len
    simp only [List.length_cons] at hbd
    obtain ⟨s2, hc, hp⟩ := copy_ctor_spec s1 j B hF.inv (by rw [hlen]; push_cast; omega) hrj
    have hF2 : Family base (k + 1) B a [] s2 := by
      refine ⟨hp.inv, by rw [hp.handles, List.length_append, hlen, List.length_singleton]; omega,
        by rw [hp.ptrs]; exact hF.ptr, ?_⟩
      intro h
      rw [block_ref_iff, hp.handles]
      by_cases hh : h < s1.handles.length
      · rw [List.getElem?_append_left hh, ← block_ref_iff, hF.members h]
        simp only [List.not_mem_nil, not_false_eq_true, and_true]
        omega
      · by_cases hh2 : h = s1.handles.length
        · subst hh2
          simp
          omega
        · rw [List.getElem?_eq_none (by simp; omega)]
          simp
          omega
    obtain ⟨s3, hr3, hF3⟩ := ih (k + 1) s2 hF2
      (fun i j2 hij => by
        have := hsrc (i + 1) j2 (by simpa using hij)
        omega)
      (by push_cast; omega)
    refine ⟨s3, ?_, ?_⟩
    · simp only [List.map_cons, run, exec, hc]
      exact hr3
    · have he : k + 1 + rest.length = k + (rest.length + 1) := by omega
      rw [List.length_cons, ← he]
      exact hF3

theorem remove_step (base N B a : Nat) (done : List Nat) (t : State) (r : Removal)
    (hF : Family base N B a done t)
    (hr : base ≤ r.handle ∧ r.handle ≤ base + N ∧ r.handle ∉ done)
    (hbd : (base : Int) + N + 1 < LONG_MAX) :
    ∃ t2, run t (r.ops t) = .ok t2 ∧ Family base N B a (r.handle :: done) t2 := by
  have hlen := hF.len
  have hBlt := family_blocks_lt base N B a done t hF
  have hbd2 : (t.handles.length : Int) < LONG_MAX := by
    rw [hlen]
    push_cast
    omega
  cases r with
  | destroy h0 =>
    simp only [Removal.handle] at hr
    have hr0 : block_ref t h0 = some (some B) := (hF.members h0).2 hr
    obtain ⟨t2, hd, hp⟩ := dtor_spec t h0 _ hF.inv hbd2 hr0
    refine ⟨t2, by simp [Removal.ops, run, exec, hd], hp.inv, by rw [hp.handles]; simp [hlen],
      by rw [hp.ptrs]; exact hF.ptr, ?_⟩
    intro h
    rw [block_ref_iff, hp.handles]
    by_cases hh : h0 = h
    · subst hh
      simp [List.getElem?_set, Removal.handle]
    · rw [List.getElem?_set_ne hh, ← block_ref_iff, hF.members h]
      simp only [Removal.handle, List.mem_cons, not_or]
      constructor
      · intro ⟨h1, h2, h3⟩
        exact ⟨h1, h2, fun e => hh e.symm, h3⟩
      · intro ⟨h1, h2, _, h3⟩
        exact ⟨h1, h2, h3⟩
  | reset_away h0 w =>
    simp only [Removal.handle] at hr
    have hr0 : block_ref t h0 = some (some B) := (hF.members h0).2 hr
    have hr1 : block_ref (new_obj t w) h0 = some (some B) := hr0
    obtain ⟨t2, hd, hp⟩ := reset_spec (new_obj t w) h0 t.objects.length _
      (new_obj_spec t _ w hF.inv) hbd2 hr1 (fresh_new_obj t w hF.inv)
    have hh2 : t2.handles = t.handles.set h0 (some ⟨some t.blocks.length⟩) := hp.handles
    have hp2 : t2.blocks.map ControlBlock.m_ptr =
        t.blocks.map ControlBlock.m_ptr ++ [some t.objects.length] := hp.ptrs
    refine ⟨t2, by simp [Removal.ops, run, exec, hd], hp.inv, by rw [hh2]; simp [hlen], ?_, ?_⟩
    · rw [hp2, List.getElem?_append_left (by simpa using hBlt)]
      exact hF.ptr
    · intro h
      rw [block_ref_iff, hh2]
      by_cases hh : h0 = h
      · subst hh
        have hne : t.blocks.length ≠ B := by omega
        simp [List.getElem?_set, Removal.handle, hne]
      · rw [List.getElem?_set_ne hh, ← block_ref_iff, hF.members h]
        simp only [Removal.handle, List.mem_cons, not_or]
        constructor
        · intro ⟨h1, h2, h3⟩
          exact ⟨h1, h2, fun e => hh e.symm, h3⟩
        · intro ⟨h1, h2, _, h3⟩
          exact ⟨h1, h2, h3⟩

theorem remove_all_family (base N B a : Nat) (rs : List Removal) (done : List Nat)
    (t : State) (hF : Family base N B a done t)
    (hnd : (rs.map Removal.handle).Nodup)
    (hrg : ∀ r ∈ rs, base ≤ r.handle ∧ r.handle ≤ base + N ∧ r.handle ∉ done)
    (hbd : (base : Int) + N + 1 < LONG_MAX) :
    ∃ t2 done2, remove_all t rs = .ok t2 ∧ Family base N B a done2 t2 ∧
      ∀ h : Nat, h ∈ done2 ↔ (h ∈ rs.map Removal.handle ∨ h ∈ done) := by
  induction rs generalizing done t with
  | nil => exact ⟨t, done, rfl, hF, by simp⟩
  | cons r rest ih =>
    simp only [List.map_cons, List.nodup_cons] at hnd
    obtain ⟨t1, hr1, hF1⟩ := remove_step base N B a done t r hF
      (hrg r (List.mem_cons_self _ _)) hbd
    obtain ⟨t2, done2, hr2, hF2, hd2⟩ := ih (r.handle :: done) t1 hF1 hnd.2
      (fun r2 hm => by
        obtain ⟨h1, h2, h3⟩ := hrg r2 (List.mem_cons_of_mem _ hm)
        refine ⟨h1, h2, ?_⟩
        simp only [List.mem_cons, not_or]
        refine ⟨?_, h3⟩
        intro he
        apply hnd.1
        rw [← he]
        exact List.mem_map_of_mem _ hm)
    refine ⟨t2, done2, by simp only [remove_all, hr1]; exact hr2, hF2, ?_⟩
    intro h
    rw [hd2 h, List.mem_cons, List.map_cons, List.mem_cons]
    constructor
    · rintro (h1 | h1 | h1)
      · exact Or.inl (Or.inr h1)
      · exact Or.inl (Or.inl h1)
      · exact Or.inr h1
    · rintro ((h1 | h1) | h1)
      · exact Or.inr (Or.inl h1)
      · exact Or.inl h1
      · exact Or.inr (Or.inr h1)

/-- C1. Shared lifetime: a handle is constructed from a fresh pointer `a`, and
`srcs.length` further handles are copy-constructed, each from a handle of the
family made so far.  Then any removals `rs` (destructor or
`h.reset(new T{w})`) of distinct handles of the family, in any order, all
complete; afterwards the object `a` has been deleted (exactly once) if every
handle of the family was removed, and has not been deleted if some handle of
the family was not. -/
theorem shared_lifetime (s : State) (a : Nat) (srcs : List Nat) (rs : List Removal)
    (hI : Inv s) (hf : fresh s (some a) = true)
    (hsrc : ∀ i j : Nat, srcs[i]? = some j →
      s.handles.length ≤ j ∧ j ≤ s.handles.length + i)
    (hnd : (rs.map Removal.handle).Nodup)
    (hrg : ∀ r ∈ rs, s.handles.length ≤ r.handle ∧
      r.handle ≤ s.handles.length + srcs.length)
    (hbd : (s.handles.length : Int) + srcs.length + 1 < LONG_MAX) :
    ∃ s1 t o, run s (.ptr_ctor (some a) true :: srcs.map Op.copy_ctor) = .ok s1 ∧
      remove_all s1 rs = .ok t ∧ t.objects[a]? = some o ∧
      ((∀ h : Nat, s.handles.length ≤ h → h ≤ s.handles.length + srcs.length →
          h ∈ rs.map Removal.handle) → o.deleted = 1) ∧
      ((∃ h : Nat, s.handles.length ≤ h ∧ h ≤ s.handles.length + srcs.length ∧
          h ∉ rs.map Removal.handle) → o.deleted = 0) := by
  obtain ⟨s0, h0, hp⟩ := ptr_ctor_spec s a hI hf
  have hF0 : Family s.handles.length 0 s.blocks.length a [] s0 := by
    refine ⟨hp.inv, by rw [hp.handles]; simp, by rw [hp.ptrs]; simp, ?_⟩
    intro h
    rw [block_ref_iff, hp.handles]
    by_cases hh : h < s.handles.length
    · rw [List.getElem?_append_left hh]
      constructor
      · intro hc
        have hz := no_owner_at_end s _ hI
        have hm : (some ⟨some s.blocks.length⟩ : Option SharedPtr) ∈ s.handles :=
          List.getElem?_mem hc
        exact absurd hz (Nat.pos_iff_ne_zero.1 (List.count_pos_iff.2 hm))
      · intro ⟨h1, _, _⟩
        omega
    · by_cases hh2 : h = s.handles.length
      · subst hh2
        simp
      · rw [List.getElem?_eq_none (by simp; omega)]
        simp
        omega
  obtain ⟨s1, hr1, hF1⟩ := build_copies s.handles.length s.blocks.length a srcs 0 s0 hF0
    (fun i j hij => by
      have := hsrc i j hij
      omega)
    (by push_cast; omega)
  rw [Nat.zero_add] at hF1
  obtain ⟨t, done, hr2, hF2, hd⟩ := remove_all_family s.handles.length srcs.length
    s.blocks.length a rs [] s1 hF1 hnd
    (fun r hm => by
      obtain ⟨h1, h2⟩ := hrg r hm
      exact ⟨h1, h2, by simp⟩)
    hbd
  have hBlt := family_blocks_lt _ _ _ _ _ _ hF2
  obtain ⟨cb, x, o, hcb, _, hfr, hpx, hox, hdel⟩ := inv_block t _ hF2.inv hBlt
  have hxa : x = a := by
    have := ptr_lookup t _ cb hcb
    rw [hF2.ptr, hpx] at this
    simpa using this.symm
  subst hxa
  refine ⟨s1, t, o, ?_, hr2, hox, ?_, ?_⟩
  · simp only [run, exec, h0]
    exact hr1
  · intro hall
    have hz : refs t s.blocks.length = 0 := by
      apply List.count_eq_zero.2
      intro hm
      obtain ⟨h, hh⟩ := List.mem_iff_getElem?.1 hm
      obtain ⟨h1, h2, h3⟩ := (hF2.members h).1 ((block_ref_iff t h _).2 hh)
      apply h3
      rw [hd h]
      exact Or.inl (hall h h1 h2)
    rw [hdel, hfr]
    simp [hz]
  · intro ⟨h, h1, h2, h3⟩
    have hr : block_ref t h = some (some s.blocks.length) := by
      apply (hF2.members h).2
      refine ⟨h1, h2, ?_⟩
      rw [hd h]
      simp [h3]
    have hpos := refs_pos t h _ hr
    have hne : refs t s.blocks.length ≠ 0 := by omega
    rw [hdel, hfr]
    simp [hne]

theorem demo_shared_inv : Inv demo_shared :=
  run_inv [.alloc 12345, .ptr_ctor (some 0) true, .copy_ctor 0, .alloc 67890] State.empty _
    inv_empty (by decide) (by decide) (by decide)

theorem demo_absent_inv : Inv demo_absent :=
  run_inv [.alloc 1, .ptr_ctor (some 0) true, .default_ctor] State.empty _
    inv_empty (by decide) (by decide) (by decide)

theorem demo_object_inv : Inv demo_object :=
  run_inv [.alloc 12345] State.empty _ inv_empty (by decide) (by decide) (by decide)

theorem shared_lifetime_witness :
    ∃ s1 t o, run demo_object (.ptr_ctor (some 0) true :: [0, 1].map Op.copy_ctor) = .ok s1 ∧
      remove_all s1 [.destroy 2, .reset_away 0 9, .destroy 1] = .ok t ∧
      t.objects[0]? = some o ∧ o.deleted = 1 := by
  obtain ⟨s1, t, o, h1, h2, h3, h4, _⟩ := shared_lifetime demo_object 0 [0, 1]
    [.destroy 2, .reset_away 0 9, .destroy 1] demo_object_inv (by decide)
    (by
      intro i j h
      rcases i with _ | _ | i <;> simp at h <;> simp [demo_object] <;> omega)
    (by decide) (by decide) (by decide)
  refine ⟨s1, t, o, h1, h2, h3, h4 ?_⟩
  intro h _ hh
  simp [demo_object, Removal.handle] at hh ⊢
  omega

theorem count_invariant_reachable_witness :
    ∃ cb a o, (⟨[⟨1, 0⟩, ⟨5, 0⟩], [⟨some 0, 2, 0⟩, ⟨some 1, 1, 0⟩],
        [none, some ⟨some 1⟩, some ⟨some 0⟩, some ⟨some 0⟩]⟩ : State).blocks[0]? = some cb ∧
      cb.freed = 0 ∧ 1 ≤ cb.m_counter ∧ cb.m_ptr = some a ∧
      (⟨[⟨1, 0⟩, ⟨5, 0⟩], [⟨some 0, 2, 0⟩, ⟨some 1, 1, 0⟩],
        [none, some ⟨some 1⟩, some ⟨some 0⟩, some ⟨some 0⟩]⟩ : State).objects[a]? = some o ∧
      o.deleted = 0 :=
  (count_invariant_reachable
    [.alloc 1, .ptr_ctor (some 0) true, .copy_ctor 0, .default_ctor, .assign 2 0,
      .copy_ctor 1, .alloc 5, .reset 1 (some 1) true, .dtor 0]
    ⟨[⟨1, 0⟩, ⟨5, 0⟩], [⟨some 0, 2, 0⟩, ⟨some 1, 1, 0⟩],
      [none, some ⟨some 1⟩, some ⟨some 0⟩, some ⟨some 0⟩]⟩
    (by decide) (by decide) (by decide)).2 2 0 (by decide)

theorem reset_independence_witness :
    ∃ s1, reset demo_shared 1 (some 1) true = .ok s1 ∧
      block_ref s1 0 = some (some 0) ∧ load s1 0 = some 12345 ∧
      block_ref s1 1 = some (some 1) ∧ s1.blocks[1]? = some ⟨some 1, 1, 0⟩ ∧
      load s1 1 = some 67890 := by
  obtain ⟨s1, h1, h2, h3, _, h5, _, h7, _, h9⟩ := reset_independence demo_shared 0 1 0 1
    demo_shared_inv (by decide) (by decide) (by decide) (by decide) (by decide)
  exact ⟨s1, h1, h2, h3.trans (by decide), h5, h7, h9.trans (by decide)⟩

theorem alloc_failure_after_release_witness :
    ptr_ctor demo_shared (some 1) false = .fail .bad_alloc demo_shared ∧
    ∃ s1 cb1, release demo_shared 1 = .ok s1 ∧
      reset demo_shared 1 (some 1) false = .fail .bad_alloc s1 ∧
      s1.blocks[0]? = some cb1 ∧ cb1.m_counter = 1 ∧ cb1.freed = 0 := by
  obtain ⟨h0, s1, h1, h2, _, _, h5⟩ := alloc_failure_after_release demo_shared 1 1 (some 0)
    demo_shared_inv (by decide) (by decide)
  obtain ⟨cb, cb1, x, o1, h6, h7, h8, _, _, h11, _⟩ := h5 0 rfl
  have hcb : cb = ⟨some 0, 2, 0⟩ := by
    have : demo_shared.blocks[0]? = some ⟨some 0, 2, 0⟩ := by decide
    rw [this] at h6
    exact (Option.some.inj h6).symm
  subst hcb
  exact ⟨h0, s1, cb1, h1, h2, h7, by simpa using h8, by simpa using h11⟩

/-- C10. Frame of copy construction: in a state satisfying the count invariant,
copy-constructing from a handle that references block `b` completes, creates
one new handle referencing `b`, raises the counter of `b` by exactly 1 and
changes nothing else (no new block, same objects, same other handles and
blocks); copy-constructing from an absent handle creates one absent handle and
changes nothing else. -/
theorem copy_ctor_frame (s : State) (other : Nat) (hI : Inv s)
    (hbd : (s.handles.length : Int) < LONG_MAX) :
    (∀ b : Nat, block_ref s other = some (some b) →
      ∃ cb, s.blocks[b]? = some cb ∧
        copy_ctor s other = .ok
          { objects := s.objects,
            blocks := s.blocks.set b { cb with m_counter := cb.m_counter + 1 },
            handles := s.handles ++ [some ⟨some b⟩] }) ∧
    (block_ref s other = some none →
      copy_ctor s other = .ok
        { objects := s.objects, blocks := s.blocks,
          handles := s.handles ++ [some ⟨none⟩] }) := by
  constructor
  · intro b hr
    have hpos := refs_pos s other b hr
    obtain ⟨cb, hcb⟩ := lookup_of_lt s.blocks b (hI.valid b hpos)
    have hc := hI.counter b cb hcb
    have hle := refs_le s b
    have hw : wrapLong (cb.m_counter + 1) = cb.m_counter + 1 := by
      apply wrapLong_id <;> (unfold LONG_MAX at *; omega)
    refine ⟨cb, hcb, ?_⟩
    rw [copy_ctor_eq s other b cb hr hcb, hw]
  · intro hr
    simp [copy_ctor, hr, new_handle]

theorem copy_ctor_frame_witness :
    copy_ctor demo_shared 0 = .ok
        ⟨[⟨12345, 0⟩, ⟨67890, 0⟩], [⟨some 0, 3, 0⟩],
          [some ⟨some 0⟩, some ⟨some 0⟩, some ⟨some 0⟩]⟩ ∧
      copy_ctor demo_absent 1 = .ok
        ⟨[⟨1, 0⟩], [⟨some 0, 1, 0⟩], [some ⟨some 0⟩, some ⟨none⟩, some ⟨none⟩]⟩ := by
  obtain ⟨cb, h1, h2⟩ :=
    (copy_ctor_frame demo_shared 0 demo_shared_inv (by decide)).1 0 (by decide)
  have hcb : cb = ⟨some 0, 2, 0⟩ := by
    have : demo_shared.blocks[0]? = some ⟨some 0, 2, 0⟩ := by decide
    rw [this] at h1
    exact (Option.some.inj h1).symm
  subst hcb
  exact ⟨h2, (copy_ctor_frame demo_absent 1 demo_absent_inv (by decide)).2 (by decide)⟩

theorem deref_shared_access_witness :
    (∃ s1, ptr_ctor demo_object (some 0) true = .ok s1 ∧ load s1 0 = some 12345) ∧
    ∃ t1, store ⟨[⟨12345, 0⟩], [⟨some 0, 2, 0⟩], [some ⟨some 0⟩, some ⟨some 0⟩]⟩ 0 67890
        = .ok t1 ∧
      (t1.objects[0]?).map Obj.value = some 67890 ∧ load t1 0 = some 67890 ∧
      load t1 1 = some 67890 ∧
      ∃ t2, copy_ctor t1 0 = .ok t2 ∧ load t2 2 = some 67890 := by
  obtain ⟨h1, _, t1, h3, h4, h5, _, h7⟩ := deref_shared_access demo_object
    ⟨[⟨12345, 0⟩], [⟨some 0, 2, 0⟩], [some ⟨some 0⟩, some ⟨some 0⟩]⟩ 0 ⟨12345, 0⟩ 67890
    [.copy_ctor 0] demo_object_inv (by decide) (by decide) (by decide) (by decide) (by decide)
  exact ⟨h1, t1, h3, h4, h5 0 (by decide), h5 1 (by decide), h7⟩

theorem single_owner_lifetime_witness :
    (∃ cb o, (⟨[⟨12345, 0⟩, ⟨5, 0⟩], [⟨some 0, 1, 0⟩, ⟨some 1, 1, 0⟩],
        [some ⟨some 0⟩, some ⟨none⟩, some ⟨some 1⟩]⟩ : State).blocks[0]? = some cb ∧
      cb.m_ptr = some 0 ∧ cb.m_counter = 1 ∧ cb.freed = 0 ∧
      (⟨[⟨12345, 0⟩, ⟨5, 0⟩], [⟨some 0, 1, 0⟩, ⟨some 1, 1, 0⟩],
        [some ⟨some 0⟩, some ⟨none⟩, some ⟨some 1⟩]⟩ : State).objects[0]? = some o ∧
      o.deleted = 0) ∧
    ∃ t1 cb1 o1, dtor ⟨[⟨12345, 0⟩, ⟨5, 0⟩], [⟨some 0, 1, 0⟩, ⟨some 1, 1, 0⟩],
        [some ⟨some 0⟩, some ⟨none⟩, some ⟨some 1⟩]⟩ 0 = .ok t1 ∧
      t1.blocks[0]? = some cb1 ∧ cb1.m_ptr = some 0 ∧ cb1.m_counter = 0 ∧
      cb1.freed = 1 ∧ t1.objects[0]? = some o1 ∧ o1.deleted = 1 :=
  single_owner_lifetime demo_object
    ⟨[⟨12345, 0⟩, ⟨5, 0⟩], [⟨some 0, 1, 0⟩, ⟨some 1, 1, 0⟩],
      [some ⟨some 0⟩, some ⟨none⟩, some ⟨some 1⟩]⟩ 0
    [.default_ctor, .alloc 5, .ptr_ctor (some 1) true] demo_object_inv
    (by decide) (by decide) (by decide) (by decide)

theorem release_state_len (s : State) (h : Nat) :
    (release s h).state.handles.length = s.handles.length := by
  cases hr : release s h with
  | ok s1 => simp [Outcome.state, release_handles _ _ _ hr]
  | fail f s1 =>
    simp only [Outcome.state]
    unfold release at hr
    split at hr
    · cases hr
      rfl
    · cases hr
    · split at hr
      · cases hr
        rfl
      · cases hr
      · rename_i s2 h2
        have h3 := dec_handles _ _ _ _ h2
        split at hr
        · cases hr
          rw [h3]
        · cases hr

theorem copy_from_state_len (s : State) (h another : Nat) :
    (copy_from s h another).state.handles.length = s.handles.length := by
  cases hr : copy_from s h another with
  | ok s1 => simp [Outcome.state, copy_from_len _ _ _ _ hr]
  | fail f s1 =>
    simp only [Outcome.state]
    unfold copy_from at hr
    split at hr
    · cases hr
      rfl
    · split at hr
      · rename_i f2 s2 h2
        cases hr
        unfold set_block_ref at h2
        split at h2
        · cases h2
          rfl
        · cases h2
      · rename_i s2 h2
        have h3 := set_block_ref_len _ _ _ _ h2
        split at hr
        · cases hr
          exact h3
        · split at hr
          · cases hr
            exact h3
          · cases hr

theorem acquire_state_len (s : State) (h : Nat) (p : Option Nat) (mem : Bool) :
    (acquire s h p mem).state.handles.length = s.handles.length := by
  cases hr : acquire s h p mem with
  | ok s1 => simp [Outcome.state, acquire_len _ _ _ _ _ hr]
  | fail f s1 =>
    simp only [Outcome.state]
    unfold acquire at hr
    split at hr
    · cases hr
      rfl
    · split at hr
      · unfold set_block_ref at hr
        split at hr
        · cases hr
          simp
        · cases hr
      · cases hr
        rfl

theorem exec_state_len (s : State) (op : Op) :
    s.handles.length ≤ (exec s op).state.handles.length := by
  cases hr : exec s op with
  | ok s1 => exact exec_len _ _ _ hr
  | fail f s1 =>
    simp only [Outcome.state]
    cases op with
    | default_ctor => simp [exec, default_ctor] at hr
    | copy_ctor another =>
      simp only [exec, copy_ctor] at hr
      split at hr
      · cases hr
        exact Nat.le_refl _
      · cases hr
      · have := copy_from_state_len (new_handle s) s.handles.length another
        rw [hr] at this
        simp [Outcome.state, new_handle] at this
        omega
    | ptr_ctor ptr mem =>
      simp only [exec, ptr_ctor] at hr
      split at hr
      · cases hr
      · cases hr
        exact Nat.le_refl _
    | assign h another =>
      simp only [exec, assign] at hr
      split at hr
      · split at hr
        · split at hr
          · rename_i f2 s2 h2
            cases hr
            have := release_state_len s h
            rw [h2] at this
            simp [Outcome.state] at this
            omega
          · rename_i s2 h2
            have h3 := copy_from_state_len s2 h another
            rw [hr] at h3
            simp only [Outcome.state] at h3
            rw [release_handles _ _ _ h2] at h3
            omega
        · cases hr
      · cases hr
        exact Nat.le_refl _
    | dtor h =>
      simp only [exec, dtor] at hr
      split at hr
      · rename_i f2 s2 h2
        cases hr
        have := release_state_len s h
        rw [h2] at this
        simp [Outcome.state] at this
        omega
      · cases hr
    | reset h ptr mem =>
      simp only [exec, reset] at hr
      split at hr
      · rename_i f2 s2 h2
        cases hr
        have := release_state_len s h
        rw [h2] at this
        simp [Outcome.state] at this
        omega
      · rename_i s2 h2
        have h3 := acquire_state_len s2 h ptr mem
        rw [hr] at h3
        simp only [Outcome.state] at h3
        rw [release_handles _ _ _ h2] at h3
        omega
    | alloc v => simp [exec] at hr
    | store h w =>
      simp only [exec, store] at hr
      split at hr
      · cases hr
        exact Nat.le_refl _
      · cases hr
        exact Nat.le_refl _
      · split at hr
        · cases hr
          exact Nat.le_refl _
        · split at hr
          · cases hr
            exact Nat.le_refl _
          · cases hr

theorem exec_fail_ok (s t : State) (op : Op) (f : Fault) (hI : Inv s)
    (hbd : (s.handles.length : Int) < LONG_MAX) (hf : op.fresh s = true)
    (he : exec s op = .fail f t) : ∃ g, BlocksOk t g := by
  cases op with
  | default_ctor => simp [exec, default_ctor] at he
  | copy_ctor another =>
    simp only [exec] at he
    cases hr : block_ref s another with
    | none =>
      simp [copy_ctor, hr] at he
      obtain ⟨_, rfl⟩ := he
      exact ⟨_, hI⟩
    | some r =>
      cases r with
      | none => simp [copy_ctor, hr] at he
      | some b =>
        obtain ⟨s2, h1, _⟩ := copy_ctor_spec s another b hI hbd hr
        rw [h1] at he
        cases he
  | ptr_ctor ptr mem =>
    simp only [exec, ptr_ctor] at he
    split at he
    · cases he
    · cases he
      exact ⟨_, hI⟩
  | assign h another =>
    simp only [exec] at he
    cases hr : block_ref s h with
    | none =>
      simp [assign, hr] at he
      obtain ⟨_, rfl⟩ := he
      exact ⟨_, hI⟩
    | some r =>
      cases ha : block_ref s another with
      | none =>
        simp [assign, hr, ha] at he
        obtain ⟨_, rfl⟩ := he
        exact ⟨_, hI⟩
      | some r2 =>
        by_cases hne : h = another
        · simp [assign, hr, ha, hne] at he
        · cases r2 with
          | none =>
            obtain ⟨s2, h1, hsh, hok⟩ := release_handle_spec s h r hI hbd hr
            have hr1 : block_ref s2 h = some r := by
              rw [block_ref_handles _ _ hsh.handles]
              exact hr
            have ha1 : block_ref s2 another = some none := by
              rw [block_ref_handles _ _ hsh.handles]
              exact ha
            simp [assign, hr, ha, hne, h1, copy_from, ha1, set_block_ref, hr1] at he
            obtain ⟨_, rfl⟩ := he
            exact ⟨_, (blocksOk_handles s2 _ _).2 hok⟩
          | some b =>
            obtain ⟨s2, h1, _⟩ := assign_spec s h another b r hI hbd hne hr ha
            rw [h1] at he
            cases he
  | dtor h =>
    simp only [exec] at he
    cases hr : block_ref s h with
    | none =>
      simp [dtor, release, hr] at he
      obtain ⟨_, rfl⟩ := he
      exact ⟨_, hI⟩
    | some r =>
      obtain ⟨s2, h1, _⟩ := dtor_spec s h r hI hbd hr
      rw [h1] at he
      cases he
  | reset h ptr mem =>
    simp only [exec] at he
    cases hr : block_ref s h with
    | none =>
      simp [reset, release, hr] at he
      obtain ⟨_, rfl⟩ := he
      exact ⟨_, hI⟩
    | some r =>
      cases ptr with
      | none => simp [Op.fresh, fresh] at hf
      | some a =>
        cases mem with
        | false =>
          obtain ⟨s2, h1, _, hok⟩ := release_handle_spec s h r hI hbd hr
          simp [reset, h1, acquire] at he
          obtain ⟨_, rfl⟩ := he
          exact ⟨_, hok⟩
        | true =>
          obtain ⟨s2, h1, _⟩ := reset_spec s h a r hI hbd hr hf
          rw [h1] at he
          cases he
  | alloc v => simp [exec] at he
  | store h w =>
    simp only [exec] at he
    cases hr : block_ref s h with
    | none =>
      simp [store, hr] at he
      obtain ⟨_, rfl⟩ := he
      exact ⟨_, hI⟩
    | some r =>
      cases r with
      | none =>
        simp [store, hr] at he
        obtain ⟨_, rfl⟩ := he
        exact ⟨_, hI⟩
      | some b =>
        obtain ⟨s2, a, h1, _, _⟩ := store_spec s h b w hI hr
        rw [h1] at he
        cases he

theorem run_state_len (ops : List Op) (s : State) :
    s.handles.length ≤ (run s ops).state.handles.length := by
  induction ops generalizing s with
  | nil => simp [run, Outcome.state]
  | cons op rest ih =>
    have h1 := exec_state_len s op
    simp only [run]
    cases hr : exec s op with
    | ok s1 =>
      rw [hr] at h1
      simp only [Outcome.state] at h1
      exact Nat.le_trans h1 (ih s1)
    | fail f s1 =>
      rw [hr] at h1
      exact h1

theorem run_state_ok (ops : List Op) (s : State) (hI : Inv s)
    (hf : fresh_run s ops = true)
    (hbd : ((run s ops).state.handles.length : Int) < LONG_MAX) :
    ∃ g, BlocksOk (run s ops).state g := by
  induction ops generalizing s with
  | nil => exact ⟨_, hI⟩
  | cons op rest ih =>
    have hlen := exec_state_len s op
    simp only [run] at hbd ⊢
    simp only [fresh_run, Bool.and_eq_true] at hf
    cases hr : exec s op with
    | ok s1 =>
      simp only [hr] at hbd hf hlen ⊢
      simp only [Outcome.state] at hlen
      have hlen2 := run_state_len rest s1
      exact ih s1 (exec_post s s1 op hI (by omega) hf.1 hr).1 hf.2 hbd
    | fail f s1 =>
      simp only [hr] at hbd hlen ⊢
      simp only [Outcome.state] at hlen hbd ⊢
      exact exec_fail_ok s s1 op f hI (by omega) hf.1 hr

theorem blocksOk_deleted_le (s : State) (g : Nat → Nat) (hI : BlocksOk s g) (a : Nat)
    (o : Obj) (ho : s.objects[a]? = some o) : o.deleted ≤ 1 := by
  by_cases hm : some a ∈ s.blocks.map ControlBlock.m_ptr
  · obtain ⟨cb, hmem, hp⟩ := List.mem_map.1 hm
    obtain ⟨b, hb⟩ := List.mem_iff_getElem?.1 hmem
    obtain ⟨a2, o2, hp2, ho2, hd2⟩ := hI.managed b cb hb
    have hfr := hI.freed b cb hb
    rw [hp] at hp2
    cases hp2
    rw [ho] at ho2
    cases ho2
    rw [hd2, hfr]
    split <;> omega
  · rw [hI.unmanaged a o ho hm]
    omega

/-- No double free and no leak for a program that ends at its first failure:
along any run from the empty state whose statements hand over only fresh
pointers, in the state the run ends in, whether every statement completed or
one of them failed, no object has been deleted more than once and no control
block has been freed more than once; and when the run completed and every
handle has been destroyed, every control block has been freed exactly once and
the object it manages has been deleted exactly once. -/
theorem no_double_free_no_leak (ops : List Op)
    (hf : fresh_run State.empty ops = true)
    (hbd : ((run State.empty ops).state.handles.length : Int) < LONG_MAX) :
    (∀ (a : Nat) (o : Obj), (run State.empty ops).state.objects[a]? = some o →
      o.deleted ≤ 1) ∧
    (∀ (b : Nat) (cb : ControlBlock), (run State.empty ops).state.blocks[b]? = some cb →
      cb.freed ≤ 1) ∧
    (∀ s : State, run State.empty ops = .ok s → (∀ x ∈ s.handles, x = none) →
      ∀ (b : Nat) (cb : ControlBlock), s.blocks[b]? = some cb →
        cb.freed = 1 ∧ ∃ a o, cb.m_ptr = some a ∧ s.objects[a]? = some o ∧
          o.deleted = 1) := by
  obtain ⟨g, hg⟩ := run_state_ok ops State.empty inv_empty hf hbd
  refine ⟨blocksOk_deleted_le _ g hg, ?_, ?_⟩
  · intro b cb hcb
    rw [hg.freed b cb hcb]
    split <;> omega
  · intro s he hall b cb hcb
    rw [he] at hbd
    have hI := run_inv ops State.empty s inv_empty hf he hbd
    have h0 : refs s b = 0 := by
      apply List.count_eq_zero.2
      intro hm
      have := hall _ hm
      cases this
    have hfr := hI.freed b cb hcb
    simp only [h0, if_true] at hfr
    obtain ⟨a, o, hp, ho, hd⟩ := hI.managed b cb hcb
    exact ⟨hfr, a, o, hp, ho, by rw [hd, hfr]⟩

theorem no_double_free_no_leak_witness :
    ∃ cb a o, (⟨[⟨1, 1⟩], [⟨some 0, 0, 1⟩], [none, none]⟩ : State).blocks[0]? = some cb ∧
      cb.freed = 1 ∧ cb.m_ptr = some a ∧
      (⟨[⟨1, 1⟩], [⟨some 0, 0, 1⟩], [none, none]⟩ : State).objects[a]? = some o ∧
      o.deleted = 1 := by
  obtain ⟨_, _, h3⟩ := no_double_free_no_leak
    [.alloc 1, .ptr_ctor (some 0) true, .copy_ctor 0, .dtor 0, .dtor 1]
    (by decide) (by decide)
  obtain ⟨h4, a, o, h5, h6, h7⟩ :=
    h3 ⟨[⟨1, 1⟩], [⟨some 0, 0, 1⟩], [none, none]⟩ (by decide) (by decide) 0
      ⟨some 0, 0, 1⟩ (by decide)
  exact ⟨⟨some 0, 0, 1⟩, a, o, by decide, h4, h5, h6, h7⟩

/-- C19. Exactly-once destruction depends on pointer freshness, which the code
does not check.  Two handles constructed from the same non-null raw pointer
and then destroyed delete the object twice; and `h.reset(p)`, where `p` is the
object `h` solely owns, deletes the object while `h` is live and references a
new block that manages it, and destroying `h` afterwards deletes it a second
time.  Every pointer passed is non-null and every statement completes. -/
theorem stale_pointer_double_delete :
    run State.empty [.alloc 1, .ptr_ctor (some 0) true, .ptr_ctor (some 0) true,
        .dtor 0, .dtor 1] =
      .ok ⟨[⟨1, 2⟩], [⟨some 0, 0, 1⟩, ⟨some 0, 0, 1⟩], [none, none]⟩ ∧
    run State.empty [.alloc 1, .ptr_ctor (some 0) true, .reset 0 (some 0) true] =
      .ok ⟨[⟨1, 1⟩], [⟨some 0, 0, 1⟩, ⟨some 0, 1, 0⟩], [some ⟨some 1⟩]⟩ ∧
    run State.empty [.alloc 1, .ptr_ctor (some 0) true, .reset 0 (some 0) true, .dtor 0] =
      .ok ⟨[⟨1, 2⟩], [⟨some 0, 0, 1⟩, ⟨some 0, 0, 1⟩], [none]⟩ := by
  decide

/-- C12. A default-constructed handle is absent: the default constructor
completes and only adds one handle whose `m_control_block` is nullptr, with no
new block and no new object; destroying that handle, and destroying any absent
handle `h` of any state `t`, completes and changes no object and no block, the
handle alone being gone afterwards. -/
theorem default_handle_absent (s t : State) (h : Nat) (hr : block_ref t h = some none) :
    default_ctor s = .ok ⟨s.objects, s.blocks, s.handles ++ [some ⟨none⟩]⟩ ∧
    block_ref ⟨s.objects, s.blocks, s.handles ++ [some ⟨none⟩]⟩ s.handles.length =
      some none ∧
    dtor ⟨s.objects, s.blocks, s.handles ++ [some ⟨none⟩]⟩ s.handles.length =
      .ok ⟨s.objects, s.blocks, s.handles ++ [none]⟩ ∧
    dtor t h = .ok ⟨t.objects, t.blocks, t.handles.set h none⟩ := by
  have hnew : block_ref ⟨s.objects, s.blocks, s.handles ++ [some ⟨none⟩]⟩
      s.handles.length = some none := by
    rw [block_ref_iff]
    simp
  refine ⟨rfl, hnew, ?_, ?_⟩
  · simp [dtor, release, hnew]
  · simp [dtor, release, hr]

theorem default_handle_absent_witness :
    default_ctor demo_shared = .ok
        ⟨[⟨12345, 0⟩, ⟨67890, 0⟩], [⟨some 0, 2, 0⟩],
          [some ⟨some 0⟩, some ⟨some 0⟩, some ⟨none⟩]⟩ ∧
      dtor demo_absent 1 = .ok ⟨[⟨1, 0⟩], [⟨some 0, 1, 0⟩], [some ⟨some 0⟩, none]⟩ :=
  ⟨(default_handle_absent demo_shared demo_absent 1 (by decide)).1,
    (default_handle_absent demo_shared demo_absent 1 (by decide)).2.2.2⟩

/-- At the least value of `long` the decrement of the counter wraps: `dec`
stores the greatest value of `long`, returns false and leaves the object
untouched. -/
theorem dec_wraps_at_long_min :
    ControlBlock.dec ⟨[⟨1, 0⟩], [⟨some 0, -9223372036854775808, 0⟩], []⟩ 0 =
        some (false, ⟨[⟨1, 0⟩], [⟨some 0, 9223372036854775807, 0⟩], []⟩) := by
  decide

/-- C15. Control block decrement: for every control block whose counter `c` is
a value of `long` above the least one, so that `c - 1` is a value of `long`,
`dec` sets the counter to `c - 1` and returns true if and only if `c - 1 = 0`;
the managed object is deleted (once more) in exactly that case, and no object
is touched when `dec` returns false, also when `c <= 0`; no other block and no
handle changes. -/
theorem dec_spec (s : State) (b a : Nat) (cb : ControlBlock) (o : Obj)
    (hcb : s.blocks[b]? = some cb) (hp : cb.m_ptr = some a) (ho : s.objects[a]? = some o)
    (hlo : -9223372036854775808 < cb.m_counter) (hhi : cb.m_counter ≤ LONG_MAX) :
    ∃ t s1, ControlBlock.dec s b = some (t, s1) ∧
      s1.blocks = s.blocks.set b { cb with m_counter := cb.m_counter - 1 } ∧
      (t = true ↔ cb.m_counter - 1 = 0) ∧
      (t = true → s1.objects = s.objects.set a { o with deleted := o.deleted + 1 }) ∧
      (t = false → s1.objects = s.objects) ∧ s1.handles = s.handles := by
  have hw : wrapLong (cb.m_counter - 1) = cb.m_counter - 1 := by
    apply wrapLong_id <;> (unfold LONG_MAX at *; omega)
  by_cases hc : cb.m_counter = 1
  · have hz : cb.m_counter - 1 = 0 := by omega
    refine ⟨true, (⟨s.objects.set a { o with deleted := o.deleted + 1 },
      s.blocks.set b { cb with m_counter := cb.m_counter - 1 }, s.handles⟩ : State),
      by simp only [ControlBlock.dec, hcb, hw]; simp [hz, hp, delete_obj, ho], rfl, ?_, ?_, ?_, rfl⟩
    · simp [hc]
    · intro _
      rfl
    · intro h
      cases h
  · have hz : cb.m_counter - 1 ≠ 0 := by omega
    refine ⟨false, (⟨s.objects,
      s.blocks.set b { cb with m_counter := cb.m_counter - 1 }, s.handles⟩ : State),
      by simp only [ControlBlock.dec, hcb, hw]; simp [hz], rfl, ?_, ?_, ?_, rfl⟩
    · constructor
      · intro h
        cases h
      · intro h
        exact absurd h hz
    · intro h
      cases h
    · intro _
      rfl

theorem dec_spec_witness :
    ∃ t s1, ControlBlock.dec ⟨[⟨1, 1⟩], [⟨some 0, 0, 1⟩], [none]⟩ 0 = some (t, s1) ∧
      t = false ∧ s1.blocks = [⟨some 0, -1, 1⟩] ∧ s1.objects = [⟨1, 1⟩] := by
  obtain ⟨t, s1, h1, h2, h3, _, h5, _⟩ := dec_spec ⟨[⟨1, 1⟩], [⟨some 0, 0, 1⟩], [none]⟩ 0 0
    ⟨some 0, 0, 1⟩ ⟨1, 1⟩ (by decide) (by decide) (by decide) (by decide) (by decide)
  have ht : t = false := by
    cases t with
    | false => rfl
    | true =>
      have := h3.1 rfl
      simp at this
  refine ⟨t, s1, h1, ht, ?_, h5 ht⟩
  rw [h2]
  decide

theorem list_set_same {α : Type} (l : List α) (i : Nat) (x : α) (hx : l[i]? = some x) :
    l.set i x = l := by
  apply List.ext_getElem?
  intro j
  rw [List.getElem?_set]
  by_cases hij : i = j
  · subst hij
    simp [lookup_lt _ _ _ hx, hx]
  · simp [hij]

theorem alias_assign_body (s : State) (h another b : Nat) (hI : Inv s)
    (hbd : (s.handles.length : Int) < LONG_MAX)
    (hr : block_ref s h = some (some b)) (ha : block_ref s another = some (some b))
    (h2 : 2 ≤ refs s b) :
    ∃ s1, release s h = .ok s1 ∧ copy_from s1 h another = .ok s := by
  have hlt := hI.valid b (by omega)
  obtain ⟨cb, hcb⟩ := lookup_of_lt s.blocks b hlt
  have hc := hI.counter b cb hcb
  have hle := refs_le s b
  have hw : wrapLong (cb.m_counter - 1) = cb.m_counter - 1 := by
    apply wrapLong_id <;> (unfold LONG_MAX at *; omega)
  have hw2 : wrapLong (cb.m_counter - 1 + 1) = cb.m_counter := by
    rw [wrapLong_id] <;> (unfold LONG_MAX at *; omega)
  have hrel := release_shared s h b cb hr hcb (by rw [hw]; omega)
  refine ⟨_, hrel, ?_⟩
  have ha1 : block_ref (⟨s.objects, s.blocks.set b
      { cb with m_counter := wrapLong (cb.m_counter - 1) }, s.handles⟩ : State) another =
      some (some b) := ha
  have hr1 : block_ref (⟨s.objects, s.blocks.set b
      { cb with m_counter := wrapLong (cb.m_counter - 1) }, s.handles⟩ : State) h =
      some (some b) := hr
  have hh : s.handles.set h (some ⟨some b⟩) = s.handles :=
    list_set_same _ _ _ ((block_ref_iff s h _).1 hr)
  have hcb1 : (s.blocks.set b { cb with m_counter := wrapLong (cb.m_counter - 1) })[b]? =
      some { cb with m_counter := wrapLong (cb.m_counter - 1) } := by
    simp [List.getElem?_set, hlt]
  have hback : ({ m_ptr := cb.m_ptr, m_counter := cb.m_counter, freed := cb.freed } :
      ControlBlock) = cb := by
    cases cb
    rfl
  have hblocks : (s.blocks.set b { cb with m_counter := wrapLong (cb.m_counter - 1) }).set b
      { m_ptr := cb.m_ptr, m_counter := wrapLong (wrapLong (cb.m_counter - 1) + 1),
        freed := cb.freed } = s.blocks := by
    rw [List.set_set, hw, hw2, hback]
    exact list_set_same _ _ _ hcb
  simp only [copy_from, ha1, set_block_ref, hr1, ControlBlock.inc, hcb1, hh, hblocks]

/-- C18. Assignment between aliases is a no-op on the state: in a state
satisfying the count invariant, for two distinct live handles `a` and `b` that
reference the same control block, `a = b` completes and returns exactly the
state it started from; the counter of the block is at least 2, and the release
step leaves it at one less, which is not zero, before `inc` restores it. -/
theorem alias_assign_noop (s : State) (a b X : Nat) (hI : Inv s)
    (hbd : (s.handles.length : Int) < LONG_MAX) (hne : a ≠ b)
    (ha : block_ref s a = some (some X)) (hb : block_ref s b = some (some X)) :
    assign s a b = .ok s ∧
    ∃ cb s1 cb1, s.blocks[X]? = some cb ∧ 2 ≤ cb.m_counter ∧ release s a = .ok s1 ∧
      s1.blocks[X]? = some cb1 ∧ cb1.m_counter = cb.m_counter - 1 ∧
      cb1.freed = 0 ∧ s1.objects = s.objects := by
  have h2 := refs_two s a b X hne ha hb
  obtain ⟨s1, hrel, hcp⟩ := alias_assign_body s a b X hI hbd ha hb (by omega)
  refine ⟨by simp [assign, ha, hb, hne, hrel, hcp], ?_⟩
  have hlt := hI.valid X (by omega)
  obtain ⟨cb, hcb⟩ := lookup_of_lt s.blocks X hlt
  have hc := hI.counter X cb hcb
  have hfr := hI.freed X cb hcb
  have hle := refs_le s X
  have hw : wrapLong (cb.m_counter - 1) = cb.m_counter - 1 := by
    apply wrapLong_id <;> (unfold LONG_MAX at *; omega)
  have hrel2 := release_shared s a X cb ha hcb (by rw [hw]; omega)
  rw [hrel] at hrel2
  cases hrel2
  refine ⟨cb, _, { cb with m_counter := wrapLong (cb.m_counter - 1) }, hcb, by omega, hrel,
    by simp [List.getElem?_set, hlt], hw, ?_, rfl⟩
  have hne0 : refs s X ≠ 0 := by omega
  simp [hfr, hne0]

theorem alias_assign_noop_witness :
    assign demo_shared 1 0 = .ok demo_shared :=
  (alias_assign_noop demo_shared 1 0 0 demo_shared_inv (by decide) (by decide) (by decide)
    (by decide)).1

theorem demo_sole_inv : Inv demo_sole :=
  run_inv [.alloc 1, .ptr_ctor (some 0) true] State.empty _ inv_empty
    (by decide) (by decide) (by decide)

/-- C14, counterexample. For a handle that is the sole owner of its block, the
assignment body without the identity check, applied to the handle itself,
deletes the managed object and frees the block, and then increments the
counter of the freed block, whereas the guarded assignment leaves the state
unchanged. -/
theorem unguarded_self_assign_destroys :
    assign_unguarded demo_sole 0 0 =
        .ok ⟨[⟨1, 1⟩], [⟨some 0, 1, 1⟩], [some ⟨some 0⟩]⟩ ∧
      assign demo_sole 0 0 = .ok demo_sole ∧
      (⟨[⟨1, 1⟩], [⟨some 0, 1, 1⟩], [some ⟨some 0⟩]⟩ : State) ≠ demo_sole := by
  decide

/-- C14, amended. In a state satisfying the count invariant, for every
non-absent handle `h`: the guarded self-assignment leaves the state unchanged;
when the block of `h` has at least one other owner, the assignment body without
the identity check would leave exactly the same state, with nothing destroyed;
when `h` is the sole owner, that body would complete with the managed object
deleted and the block freed. -/
theorem unguarded_self_assign (s : State) (h b : Nat) (hI : Inv s)
    (hbd : (s.handles.length : Int) < LONG_MAX)
    (hr : block_ref s h = some (some b)) :
    assign s h h = .ok s ∧
    (2 ≤ refs s b → assign_unguarded s h h = .ok s) ∧
    (refs s b = 1 → ∃ s1 cb1 a o1, assign_unguarded s h h = .ok s1 ∧
      s1.blocks[b]? = some cb1 ∧ cb1.freed = 1 ∧ cb1.m_ptr = some a ∧
      s1.objects[a]? = some o1 ∧ o1.deleted = 1) := by
  refine ⟨by simp [assign, hr], ?_, ?_⟩
  · intro h2
    obtain ⟨s1, hrel, hcp⟩ := alias_assign_body s h h b hI hbd hr hr h2
    simp only [assign_unguarded, hrel, hcp]
  · intro h1
    obtain ⟨cb, a, o, hcb, hc, hfr, hp, ho, hd⟩ := live_block s h b hI hr
    have hlt := lookup_lt _ _ _ hcb
    have halt := lookup_lt _ _ _ ho
    have hz : wrapLong (cb.m_counter - 1) = 0 := by
      rw [hc, h1]
      decide
    have hrel := release_last s h b a cb o hr hcb hz hp ho
    have hr1 : block_ref (⟨s.objects.set a { o with deleted := o.deleted + 1 },
        s.blocks.set b { cb with m_counter := 0, freed := cb.freed + 1 }, s.handles⟩ : State)
        h = some (some b) := hr
    have hcb1 : (s.blocks.set b { cb with m_counter := 0, freed := cb.freed + 1 })[b]? =
        some { cb with m_counter := 0, freed := cb.freed + 1 } := by
      simp [List.getElem?_set, hlt]
    refine ⟨(⟨s.objects.set a { o with deleted := o.deleted + 1 },
        (s.blocks.set b { cb with m_counter := 0, freed := cb.freed + 1 }).set b
          { m_ptr := cb.m_ptr, m_counter := wrapLong (0 + 1), freed := cb.freed + 1 },
        s.handles.set h (some ⟨some b⟩)⟩ : State),
      { m_ptr := cb.m_ptr, m_counter := wrapLong (0 + 1), freed := cb.freed + 1 }, a,
      { o with deleted := o.deleted + 1 }, ?_, ?_, ?_, hp, ?_, ?_⟩
    · simp only [assign_unguarded, hrel, copy_from, hr1, set_block_ref, ControlBlock.inc, hcb1]
    · simp [List.getElem?_set, hlt]
    · simp [hfr]
    · simp [List.getElem?_set, halt]
    · simp [hd]

theorem unguarded_self_assign_witness :
    assign demo_shared 1 1 = .ok demo_shared ∧
      assign_unguarded demo_shared 1 1 = .ok demo_shared := by
  obtain ⟨h1, h2, _⟩ := unguarded_self_assign demo_shared 1 0 demo_shared_inv (by decide)
    (by decide)
  exact ⟨h1, h2 (by decide)⟩

theorem inv_push_dead (s : State) (hI : Inv s) :
    Inv ⟨s.objects, s.blocks, s.handles ++ [none]⟩ := by
  have hg : refs ⟨s.objects, s.blocks, s.handles ++ [none]⟩ = refs s := by
    funext b
    rw [refs_of_push s _ none rfl b]
    simp
  unfold Inv
  rw [hg]
  exact (blocksOk_handles s _ _).2 hI

theorem round_trip_one (s : State) (H b : Nat) (hI : Inv s)
    (hbd : (s.handles.length : Int) < LONG_MAX) (hr : block_ref s H = some (some b)) :
    run s [.copy_ctor H, .dtor s.handles.length] =
      .ok ⟨s.objects, s.blocks, s.handles ++ [none]⟩ := by
  obtain ⟨cb, a, o, hcb, hc, hfr, hp, ho, hd⟩ := live_block s H b hI hr
  have hlt := lookup_lt _ _ _ hcb
  have hpos := refs_pos s H b hr
  have hle := refs_le s b
  have hw : wrapLong (cb.m_counter + 1) = cb.m_counter + 1 := by
    apply wrapLong_id <;> (unfold LONG_MAX at *; omega)
  have hw2 : wrapLong (cb.m_counter + 1 - 1) = cb.m_counter := by
    rw [wrapLong_id] <;> (unfold LONG_MAX at *; omega)
  have hcopy := copy_ctor_eq s H b cb hr hcb
  have hr1 : block_ref (⟨s.objects,
      s.blocks.set b { cb with m_counter := wrapLong (cb.m_counter + 1) },
      s.handles ++ [some ⟨some b⟩]⟩ : State) s.handles.length = some (some b) := by
    rw [block_ref_iff]
    simp
  have hcb1 : (⟨s.objects,
      s.blocks.set b { cb with m_counter := wrapLong (cb.m_counter + 1) },
      s.handles ++ [some ⟨some b⟩]⟩ : State).blocks[b]? =
      some { cb with m_counter := wrapLong (cb.m_counter + 1) } := by
    simp [List.getElem?_set, hlt]
  have hrel := release_shared _ s.handles.length b _ hr1 hcb1
    (by simp only [hw, hw2]; omega)
  have hback : ({ m_ptr := cb.m_ptr, m_counter := cb.m_counter, freed := cb.freed } :
      ControlBlock) = cb := by
    cases cb
    rfl
  have hblocks : (s.blocks.set b { cb with m_counter := wrapLong (cb.m_counter + 1) }).set b
      { m_ptr := cb.m_ptr, m_counter := wrapLong (wrapLong (cb.m_counter + 1) - 1),
        freed := cb.freed } = s.blocks := by
    rw [List.set_set, hw, hw2, hback]
    exact list_set_same _ _ _ hcb
  simp only [run, exec, hcopy, dtor, hrel, hblocks]
  simp

theorem assign_into_new (s : State) (H b : Nat) (hr : block_ref s H = some (some b)) :
    assign (new_handle s) s.handles.length H = copy_ctor s H := by
  have hH0 := (block_ref_iff s H _).1 hr
  have hHlt := lookup_lt _ _ _ hH0
  have hnew : block_ref (new_handle s) s.handles.length = some none := by
    rw [block_ref_iff]
    simp [new_handle]
  have hH1 : block_ref (new_handle s) H = some (some b) := by
    rw [block_ref_iff]
    simp only [new_handle]
    rw [List.getElem?_append_left hHlt]
    exact hH0
  have hne : s.handles.length ≠ H := by omega
  simp [assign, hnew, hH1, hne, release_absent _ _ hnew, copy_ctor, hr]

theorem run_append (l1 l2 : List Op) (s : State) :
    run s (l1 ++ l2) =
      match run s l1 with
      | .ok s1 => run s1 l2
      | .fail f s1 => .fail f s1 := by
  induction l1 generalizing s with
  | nil => rfl
  | cons op rest ih =>
    simp only [List.cons_append, run]
    cases exec s op with
    | ok s1 => exact ih s1
    | fail f s1 => rfl

theorem round_trips_run (n : Nat) (s : State) (H b : Nat) (hI : Inv s)
    (hbd : (s.handles.length : Int) + n < LONG_MAX)
    (hr : block_ref s H = some (some b)) :
    run s (round_trips s.handles.length H n) =
      .ok ⟨s.objects, s.blocks, s.handles ++ List.replicate n none⟩ := by
  induction n generalizing s with
  | zero => simp [round_trips, run]
  | succ n ih =>
    have h1 := round_trip_one s H b hI (by omega) hr
    have hr2 : block_ref (⟨s.objects, s.blocks, s.handles ++ [none]⟩ : State) H =
        some (some b) := by
      have hH0 := (block_ref_iff s H _).1 hr
      rw [block_ref_iff]
      simp only
      rw [List.getElem?_append_left (lookup_lt _ _ _ hH0)]
      exact hH0
    have h2 := ih ⟨s.objects, s.blocks, s.handles ++ [none]⟩ (inv_push_dead s hI)
      (by simp only [List.length_append, List.length_singleton]; push_cast; omega) hr2
    simp only [List.length_append, List.length_singleton] at h2
    have hsplit : round_trips s.handles.length H (n + 1) =
        [.copy_ctor H, .dtor s.handles.length] ++ round_trips (s.handles.length + 1) H n := rfl
    rw [hsplit, run_append, h1]
    simp only
    rw [h2]
    simp [List.replicate_succ]

/-- C16. Copy-then-destroy is a round trip: in a state satisfying the count
invariant, for every non-absent handle `H`, creating a handle from `H` by copy
construction, or by default construction followed by assignment from `H`, and
then destroying the new handle completes and leaves every object, every block
and every earlier handle exactly as before, the destroyed handle alone being
added to the handles; the same holds for `n` such round trips in a row, and
the object of the block of `H` is not deleted and the block is not freed. -/
theorem copy_destroy_round_trip (s : State) (H b n : Nat) (hI : Inv s)
    (hbd : (s.handles.length : Int) + n < LONG_MAX)
    (hr : block_ref s H = some (some b)) :
    run s [.copy_ctor H, .dtor s.handles.length] =
      .ok ⟨s.objects, s.blocks, s.handles ++ [none]⟩ ∧
    run s [.default_ctor, .assign s.handles.length H, .dtor s.handles.length] =
      .ok ⟨s.objects, s.blocks, s.handles ++ [none]⟩ ∧
    run s (round_trips s.handles.length H n) =
      .ok ⟨s.objects, s.blocks, s.handles ++ List.replicate n none⟩ ∧
    ∃ cb a o, s.blocks[b]? = some cb ∧ cb.m_counter = (refs s b : Int) ∧ cb.freed = 0 ∧
      cb.m_ptr = some a ∧ s.objects[a]? = some o ∧ o.deleted = 0 := by
  have h1 := round_trip_one s H b hI (by omega) hr
  refine ⟨h1, ?_, round_trips_run n s H b hI hbd hr, live_block s H b hI hr⟩
  have h2 : run s [.default_ctor, .assign s.handles.length H, .dtor s.handles.length] =
      run s [.copy_ctor H, .dtor s.handles.length] := by
    simp only [run, exec, default_ctor, assign_into_new s H b hr]
  rw [h2, h1]

theorem copy_destroy_round_trip_witness :
    run demo_shared [.copy_ctor 0, .dtor 2] =
        .ok ⟨demo_shared.objects, demo_shared.blocks, demo_shared.handles ++ [none]⟩ ∧
      run demo_shared [.default_ctor, .assign 2 0, .dtor 2] =
        .ok ⟨demo_shared.objects, demo_shared.blocks, demo_shared.handles ++ [none]⟩ ∧
      run demo_shared (round_trips 2 0 100) =
        .ok ⟨demo_shared.objects, demo_shared.blocks,
          demo_shared.handles ++ List.replicate 100 none⟩ := by
  obtain ⟨h1, h2, h3, _⟩ := copy_destroy_round_trip demo_shared 0 0 100 demo_shared_inv
    (by decide) (by decide)
  exact ⟨h1, h2, h3⟩

/-- C17. Reset is destruct followed by owning construction: in a state
satisfying the count invariant, for every live handle `h` (absent or not) and
every non-null pointer `a` with successful allocation, `h.reset(a)`, and the
destructor of `h` followed by construction of a handle from `a`, both
complete and produce the same objects and the same blocks, `h` in the first
case and the new handle in the second referencing the new block; the new block
manages `a` with counter 1 and one owner; the counter of the block `h` held
before is lowered by exactly one, and that block is freed and its object
deleted exactly when `h` was its last owner. -/
theorem reset_is_dtor_then_ctor (s : State) (h a : Nat) (r : Option Nat) (hI : Inv s)
    (hbd : (s.handles.length : Int) < LONG_MAX) (hr : block_ref s h = some r) :
    ∃ s1 s2 s3, reset s h (some a) true = .ok s1 ∧ dtor s h = .ok s2 ∧
      ptr_ctor s2 (some a) true = .ok s3 ∧
      s1.objects = s3.objects ∧ s1.blocks = s3.blocks ∧
      s1.handles = s.handles.set h (some ⟨some s.blocks.length⟩) ∧
      s3.handles = s.handles.set h none ++ [some ⟨some s.blocks.length⟩] ∧
      s1.blocks[s.blocks.length]? = some ⟨some a, 1, 0⟩ ∧
      refs s1 s.blocks.length = 1 ∧
      ∀ b : Nat, r = some b →
        ∃ cb cb1 x o1, s.blocks[b]? = some cb ∧ s1.blocks[b]? = some cb1 ∧
          cb1.m_counter = cb.m_counter - 1 ∧ cb1.m_ptr = some x ∧
          s1.objects[x]? = some o1 ∧
          cb1.freed = (if cb.m_counter = 1 then 1 else 0) ∧
          o1.deleted = (if cb.m_counter = 1 then 1 else 0) := by
  obtain ⟨sr, h1, hsh, hok⟩ := release_handle_spec s h r hI hbd hr
  have hlen : sr.blocks.length = s.blocks.length := by
    have := congrArg List.length hsh.ptrs
    simpa using this
  have hr1 : block_ref sr h = some r := by
    rw [block_ref_handles _ _ hsh.handles]
    exact hr
  have hrb : block_ref (⟨sr.objects, sr.blocks ++ [⟨some a, 1, 0⟩], sr.handles⟩ : State) h =
      some r := hr1
  have hreset : reset s h (some a) true = .ok ⟨sr.objects, sr.blocks ++ [⟨some a, 1, 0⟩],
      sr.handles.set h (some ⟨some sr.blocks.length⟩)⟩ := by
    simp [reset, h1, acquire, set_block_ref, hrb]
  have hdtor : dtor s h = .ok ⟨sr.objects, sr.blocks, sr.handles.set h none⟩ := by
    simp [dtor, h1]
  have hctor := ptr_ctor_eq ⟨sr.objects, sr.blocks, sr.handles.set h none⟩ a
  refine ⟨_, _, _, hreset, hdtor, hctor, rfl, rfl, by simp [hsh.handles, hlen],
    by simp [hsh.handles, hlen], by simp [← hlen], ?_, ?_⟩
  · rw [refs_of_set s _ h (some ⟨some s.blocks.length⟩) r
      (by simp [hsh.handles, hlen]) hr s.blocks.length]
    simp [no_owner_at_end s _ hI]
  · intro b hb
    subst hb
    have hpos := refs_pos s h b hr
    have hlt := hI.valid b hpos
    obtain ⟨cb, hcb⟩ := lookup_of_lt s.blocks b hlt
    obtain ⟨cb1, hcb1⟩ := lookup_of_lt sr.blocks b (by omega)
    obtain ⟨x, o1, hp1, ho1, hd1⟩ := hok.managed b cb1 hcb1
    have hc := hI.counter b cb hcb
    have hc1 := hok.counter b cb1 hcb1
    have hf1 := hok.freed b cb1 hcb1
    simp only [if_true] at hc1 hf1
    have hiff : (refs s b - 1 = 0) ↔ cb.m_counter = 1 := by
      rw [hc]
      omega
    refine ⟨cb, cb1, x, o1, hcb, ?_, ?_, hp1, ho1, ?_, ?_⟩
    · simp only
      rw [List.getElem?_append_left (by omega)]
      exact hcb1
    · rw [hc1, hc]
      omega
    · rw [hf1]
      simp only [hiff]
    · rw [hd1, hf1]
      simp only [hiff]

theorem reset_is_dtor_then_ctor_witness :
    ∃ s1 s2 s3, reset demo_shared 1 (some 1) true = .ok s1 ∧ dtor demo_shared 1 = .ok s2 ∧
      ptr_ctor s2 (some 1) true = .ok s3 ∧ s1.objects = s3.objects ∧
      s1.blocks = s3.blocks ∧ s1.blocks[1]? = some ⟨some 1, 1, 0⟩ := by
  obtain ⟨s1, s2, s3, h1, h2, h3, h4, h5, _, _, h8, _⟩ := reset_is_dtor_then_ctor demo_shared
    1 1 (some 0) demo_shared_inv (by decide) (by decide)
  exact ⟨s1, s2, s3, h1, h2, h3, h4, h5, h8⟩

theorem nonull_set (s s1 : State) (b : Nat) (x : ControlBlock) (hN : NoNull s)
    (hb : s1.blocks = s.blocks.set b x) (hx : x.m_ptr ≠ none) : NoNull s1 := by
  intro cb hm
  rw [hb] at hm
  rcases List.mem_or_eq_of_mem_set hm with h | h
  · exact hN cb h
  · rw [h]
    exact hx

theorem nonull_same (s s1 : State) (hN : NoNull s) (hb : s1.blocks = s.blocks) :
    NoNull s1 := by
  intro cb hm
  rw [hb] at hm
  exact hN cb hm

theorem delete_obj_blocks (s s1 : State) (p : Option Nat)
    (he : delete_obj s p = some s1) : s1.blocks = s.blocks := by
  unfold delete_obj at he
  split at he
  · cases he
    rfl
  · split at he
    · cases he
    · cases he
      rfl

theorem dec_nonull (s s1 : State) (b : Nat) (t : Bool) (hN : NoNull s)
    (he : ControlBlock.dec s b = some (t, s1)) : NoNull s1 := by
  unfold ControlBlock.dec at he
  split at he
  · cases he
  · rename_i cb hcb
    have hcbN : cb.m_ptr ≠ none := hN cb (List.getElem?_mem hcb)
    simp only at he
    split at he
    · split at he
      · cases he
      · rename_i s2 h2
        cases he
        have h3 := delete_obj_blocks _ _ _ h2
        exact nonull_set s _ b _ hN h3 hcbN
    · cases he
      exact nonull_set s _ b _ hN rfl hcbN

theorem delete_block_nonull (s s1 : State) (b : Nat) (hN : NoNull s)
    (he : delete_block s b = some s1) : NoNull s1 := by
  unfold delete_block at he
  split at he
  · cases he
  · rename_i cb hcb
    cases he
    exact nonull_set s _ b _ hN rfl (hN cb (List.getElem?_mem hcb))

theorem inc_nonull (s s1 : State) (b : Nat) (hN : NoNull s)
    (he : ControlBlock.inc s b = some s1) : NoNull s1 := by
  unfold ControlBlock.inc at he
  split at he
  · cases he
  · rename_i cb hcb
    cases he
    exact nonull_set s _ b _ hN rfl (hN cb (List.getElem?_mem hcb))

theorem release_nonull (s : State) (h : Nat) (hN : NoNull s) :
    NoNull (release s h).state := by
  unfold release
  split
  · exact hN
  · exact hN
  · split
    · exact hN
    · rename_i s2 h2
      exact dec_nonull _ _ _ _ hN h2
    · rename_i s2 h2
      have hN2 := dec_nonull _ _ _ _ hN h2
      split
      · exact hN2
      · rename_i s3 h3
        exact delete_block_nonull _ _ _ hN2 h3

theorem set_block_ref_nonull (s : State) (h : Nat) (r : Option Nat) (hN : NoNull s) :
    NoNull (set_block_ref s h r).state := by
  unfold set_block_ref
  split
  · exact hN
  · exact nonull_same s _ hN rfl

theorem acquire_nonull (s : State) (h : Nat) (p : Option Nat) (mem : Bool) (hN : NoNull s) :
    NoNull (acquire s h p mem).state := by
  unfold acquire
  split
  · exact hN
  · rename_i a
    split
    · apply set_block_ref_nonull
      intro cb hm
      simp only [List.mem_append, List.mem_singleton] at hm
      rcases hm with hm | hm
      · exact hN cb hm
      · rw [hm]
        simp
    · exact hN

theorem copy_from_nonull (s : State) (h another : Nat) (hN : NoNull s) :
    NoNull (copy_from s h another).state := by
  unfold copy_from
  split
  · exact hN
  · rename_i r hr
    have h1 := set_block_ref_nonull s h r hN
    split
    · rename_i f s1 h2
      rw [h2] at h1
      exact h1
    · rename_i s1 h2
      rw [h2] at h1
      simp only [Outcome.state] at h1
      split
      · exact h1
      · split
        · exact h1
        · rename_i s2 h3
          exact inc_nonull _ _ _ h1 h3

theorem exec_nonull (s : State) (op : Op) (hN : NoNull s) : NoNull (exec s op).state := by
  cases op with
  | default_ctor => exact nonull_same s _ hN rfl
  | copy_ctor another =>
    simp only [exec, copy_ctor]
    split
    · exact hN
    · exact nonull_same s _ hN rfl
    · exact copy_from_nonull _ _ _ (nonull_same s (new_handle s) hN rfl)
  | ptr_ctor ptr mem =>
    have h1 := acquire_nonull (new_handle s) s.handles.length ptr mem
      (nonull_same s (new_handle s) hN rfl)
    simp only [exec, ptr_ctor]
    split
    · rename_i s1 h2
      rw [h2] at h1
      exact h1
    · exact hN
  | assign h another =>
    simp only [exec, assign]
    split
    · split
      · have h1 := release_nonull s h hN
        split
        · rename_i f s1 h2
          rw [h2] at h1
          exact h1
        · rename_i s1 h2
          rw [h2] at h1
          exact copy_from_nonull _ _ _ h1
      · exact hN
    · exact hN
  | dtor h =>
    have h1 := release_nonull s h hN
    simp only [exec, dtor]
    split
    · rename_i f s1 h2
      rw [h2] at h1
      exact h1
    · rename_i s1 h2
      rw [h2] at h1
      exact nonull_same s1 _ h1 rfl
  | reset h ptr mem =>
    have h1 := release_nonull s h hN
    simp only [exec, reset]
    split
    · rename_i f s1 h2
      rw [h2] at h1
      exact h1
    · rename_i s1 h2
      rw [h2] at h1
      exact acquire_nonull _ _ _ _ h1
  | alloc v => exact nonull_same s _ hN rfl
  | store h w =>
    simp only [exec, store]
    split
    · exact hN
    · exact hN
    · split
      · exact hN
      · split
        · exact hN
        · exact nonull_same s _ hN rfl

theorem run_nonull (ops : List Op) (s : State) (hN : NoNull s) :
    NoNull (run s ops).state := by
  induction ops generalizing s with
  | nil => exact hN
  | cons op rest ih =>
    have h1 := exec_nonull s op hN
    simp only [run]
    cases hr : exec s op with
    | ok s1 =>
      rw [hr] at h1
      exact ih s1 h1
    | fail f s1 =>
      rw [hr] at h1
      exact h1

/-- C11. Null pointer is rejected: in a state satisfying the count invariant
with a live handle `h`, constructing a handle from nullptr fails with an
assertion failure and leaves the state unchanged; `h.reset(nullptr)` fails with
an assertion failure, after its release step, without adding a block; with a
non-null pointer and successful allocation both complete and add exactly one
block; and in the state any run from the empty state ends in, completed or
not, no control block manages the null pointer. -/
theorem null_pointer_rejected (s : State) (h a : Nat) (r : Option Nat) (mem : Bool)
    (ops : List Op) (hI : Inv s) (hbd : (s.handles.length : Int) < LONG_MAX)
    (hr : block_ref s h = some r) :
    ptr_ctor s none mem = .fail .assertion s ∧
    (∃ s1, reset s h none mem = .fail .assertion s1 ∧
      s1.blocks.length = s.blocks.length) ∧
    (∃ s1, ptr_ctor s (some a) true = .ok s1 ∧ s1.blocks = s.blocks ++ [⟨some a, 1, 0⟩]) ∧
    (∃ s1, reset s h (some a) true = .ok s1 ∧ s1.blocks.length = s.blocks.length + 1) ∧
    ∀ cb ∈ (run State.empty ops).state.blocks, cb.m_ptr ≠ none := by
  obtain ⟨sr, h1, hsh, _⟩ := release_handle_spec s h r hI hbd hr
  have hlen : sr.blocks.length = s.blocks.length := by
    have := congrArg List.length hsh.ptrs
    simpa using this
  have hrb : block_ref (⟨sr.objects, sr.blocks ++ [⟨some a, 1, 0⟩], sr.handles⟩ : State) h =
      some r := by
    rw [← hr]
    exact block_ref_handles s _ hsh.handles h
  refine ⟨by simp [ptr_ctor, acquire], ⟨sr, by simp [reset, h1, acquire], hlen⟩,
    ⟨_, ptr_ctor_eq s a, rfl⟩, ?_, ?_⟩
  · refine ⟨⟨sr.objects, sr.blocks ++ [⟨some a, 1, 0⟩],
      sr.handles.set h (some ⟨some sr.blocks.length⟩)⟩, ?_, by simp [hlen]⟩
    simp [reset, h1, acquire, set_block_ref, hrb]
  · have hN : NoNull State.empty := by
      intro cb hm
      simp [State.empty] at hm
    exact run_nonull ops State.empty hN

theorem null_pointer_rejected_witness :
    ptr_ctor demo_shared none true = .fail .assertion demo_shared ∧
    (∃ s1, reset demo_shared 1 none true = .fail .assertion s1 ∧
      s1.blocks.length = demo_shared.blocks.length) ∧
    (∃ s1, reset demo_shared 1 (some 1) true = .ok s1 ∧
      s1.blocks.length = demo_shared.blocks.length + 1) := by
  obtain ⟨h1, h2, _, h4, _⟩ := null_pointer_rejected demo_shared 1 1 (some 0) true []
    demo_shared_inv (by decide) (by decide)
  exact ⟨h1, h2, h4⟩

/-- C2. Double free after a failed `reset`: the client runs
`SharedPtr h{new T{1}}; h.reset(new T{2});` where the allocation of the control
block fails, catches `std::bad_alloc`, copy-constructs a handle from `h` and
destroys the copy.  Only fresh non-null pointers are handed over.  The failed
`reset` has deleted the object and freed the block while `h` still holds the
block; the copy raises the counter of the freed block to 1 and its destructor
deletes the object and frees the block a second time. -/
theorem double_free_after_failed_reset :
    fresh_run_catch State.empty [.alloc 1, .ptr_ctor (some 0) true, .alloc 2,
        .reset 0 (some 1) false, .copy_ctor 0, .dtor 1] = true ∧
      run_catch State.empty [.alloc 1, .ptr_ctor (some 0) true, .alloc 2,
        .reset 0 (some 1) false] =
        .ok ⟨[⟨1, 1⟩, ⟨2, 0⟩], [⟨some 0, 0, 1⟩], [some ⟨some 0⟩]⟩ ∧
      run_catch State.empty [.alloc 1, .ptr_ctor (some 0) true, .alloc 2,
        .reset 0 (some 1) false, .copy_ctor 0] =
        .ok ⟨[⟨1, 1⟩, ⟨2, 0⟩], [⟨some 0, 1, 1⟩], [some ⟨some 0⟩, some ⟨some 0⟩]⟩ ∧
      run_catch State.empty [.alloc 1, .ptr_ctor (some 0) true, .alloc 2,
        .reset 0 (some 1) false, .copy_ctor 0, .dtor 1] =
        .ok ⟨[⟨1, 2⟩, ⟨2, 0⟩], [⟨some 0, 0, 2⟩], [some ⟨some 0⟩, none]⟩ := by
  decide

theorem run_catch_of_run (ops : List Op) (s t : State) (he : run s ops = .ok t) :
    run_catch s ops = .ok t := by
  induction ops generalizing s with
  | nil => exact he
  | cons op rest ih =>
    obtain ⟨s1, h1, h2⟩ := run_cons_ok s t op rest he
    simp only [run_catch, h1]
    exact ih s1 h2

end SharedPtrModel
